import Mathlib

/-!
Verification development for the subtitle-translation addon (index.js).

The JavaScript source is shallowly embedded: strings are lists of
characters, the tolerant SRT codec (parseSRT / buildSRT / srtTimeToMs /
makePlaceholderSRT), the batching translator (batchTranslateSentences),
the asynchronous job body (submitTranslationJob) and the subtitles
request handler (defineSubtitlesHandler) are translated as executable
Lean functions.  Network calls and database effects are abstracted as
explicit oracle inputs and explicit write/trace outputs.
-/

namespace SubAddon

/-- JavaScript strings are modelled as lists of characters. -/
abbrev Str := List Char

/-- Whitespace test matching the characters JavaScript trims
(ASCII whitespace plus NBSP and BOM; the inputs in this development are
ASCII). -/
def isWs (c : Char) : Bool :=
  c = ' ' || c = '\t' || c = '\n' || c = '\r' ||
  c = '\x0b' || c = '\x0c' || c = '\u00A0' || c = '\uFEFF'

/-- Model of JavaScript String.prototype.trim. -/
def jsTrim (s : Str) : Str :=
  ((s.dropWhile isWs).reverse.dropWhile isWs).reverse

/-- Prepend a character to the first part of a split result. -/
def consHead (c : Char) : List Str → List Str
  | [] => [[c]]
  | h :: t => (c :: h) :: t

/-- Model of s.split(/\r?\n/): cut at CRLF or bare LF (the regex engine
scans left to right, consuming a CR only together with a following LF). -/
def splitNL : Str → List Str
  | [] => [[]]
  | '\n' :: rest => [] :: splitNL rest
  | '\r' :: '\n' :: rest => [] :: splitNL rest
  | c :: rest => consHead c (splitNL rest)

/-- Model of s.split(/\r?\n\r?\n/): cut at two consecutive line breaks,
each break either CRLF or bare LF, leftmost match first with the greedy
optional CR exactly as the regex engine matches. -/
def splitDouble : Str → List Str
  | [] => [[]]
  | '\n' :: '\n' :: rest => [] :: splitDouble rest
  | '\n' :: '\r' :: '\n' :: rest => [] :: splitDouble rest
  | '\r' :: '\n' :: '\n' :: rest => [] :: splitDouble rest
  | '\r' :: '\n' :: '\r' :: '\n' :: rest => [] :: splitDouble rest
  | c :: rest => consHead c (splitDouble rest)

/-- Model of s.split('-->') (literal three-character separator). -/
def splitArrow : Str → List Str
  | [] => [[]]
  | '-' :: '-' :: '>' :: rest => [] :: splitArrow rest
  | c :: rest => consHead c (splitArrow rest)

/-- Model of s.split('\n') (literal one-character separator, used on the
free-engine response). -/
def splitLF : Str → List Str
  | [] => [[]]
  | c :: rest =>
    if c = '\n' then [] :: splitLF rest
    else consHead c (splitLF rest)

/-- Substring test for the time-range separator regex (dash, dash,
greater-than) applied to a line. -/
def hasArrow : Str → Bool
  | '-' :: '-' :: '>' :: _ => true
  | _ :: rest => hasArrow rest
  | [] => false

/-- Model of Array.prototype.join with a one-character separator. -/
def joinWith (sep : Char) : List Str → Str
  | [] => []
  | [l] => l
  | l :: ls => l ++ sep :: joinWith sep ls

/-- Numeric value of a decimal digit character. -/
def digitVal (c : Char) : Nat := c.toNat - '0'.toNat

/-- Decimal value of a digit string (the unary plus of the matched group). -/
def digitsToNat (ds : Str) : Nat :=
  ds.foldl (fun acc c => acc * 10 + digitVal c) 0

/-- Attempt to match the timestamp pattern (\d+):(\d{2}):(\d{2}),(\d{3})
at the start of the string, returning the millisecond value on success. -/
def msTryAt (s : Str) : Option Nat :=
  let ds := s.takeWhile Char.isDigit
  let rest := s.dropWhile Char.isDigit
  if ds = [] then none else
  match rest with
  | ':' :: m1 :: m2 :: ':' :: s1 :: s2 :: ',' :: x1 :: x2 :: x3 :: _ =>
    if m1.isDigit && m2.isDigit && s1.isDigit && s2.isDigit &&
       x1.isDigit && x2.isDigit && x3.isDigit then
      some (digitsToNat ds * 3600 * 1000 +
            (digitVal m1 * 10 + digitVal m2) * 60 * 1000 +
            (digitVal s1 * 10 + digitVal s2) * 1000 +
            (digitVal x1 * 100 + digitVal x2 * 10 + digitVal x3))
    else none
  | _ => none

/-- Scan for the leftmost match of the timestamp pattern. -/
def msSearch : Str → Option Nat
  | [] => none
  | c :: rest =>
    match msTryAt (c :: rest) with
    | some v => some v
    | none => msSearch rest

/-- Model of srtTimeToMs: first match of the timestamp pattern, 0 when the
pattern does not appear anywhere (never throws). -/
def srtTimeToMs (t : Str) : Nat := (msSearch t).getD 0

/-- Decimal rendering of a natural number, as JavaScript template
interpolation renders the 1-based ordinal. -/
def natToStr (n : Nat) : Str :=
  if _h : n < 10 then [Nat.digitChar n]
  else natToStr (n / 10) ++ [Nat.digitChar (n % 10)]
decreasing_by exact Nat.div_lt_self (by omega) (by omega)

/-- One parsed subtitle cue, as pushed by parseSRT. -/
structure Cue where
  id : Str
  start : Str
  endS : Str
  startMs : Nat
  text : Str
deriving DecidableEq, Repr

/-- Parse one blank-line-delimited block, returning none for the blocks the
tolerant parser silently drops (fewer than two non-empty lines, or no line
containing the separator). -/
def parseBlock (p : Str) : Option Cue :=
  let lines := (splitNL p).filter (fun l => l ≠ [])
  if lines.length < 2 then none else
  match lines.findIdx? hasArrow with
  | none => none
  | some i =>
    let idStr := jsTrim (joinWith ' ' (lines.take i))
    let timeLine := jsTrim (lines.getD i [])
    let textStr := jsTrim (joinWith '\n' (lines.drop (i + 1)))
    let parts := (splitArrow timeLine).map jsTrim
    let startStr := parts.getD 0 []
    let endStr := parts.getD 1 []
    some { id := idStr, start := startStr, endS := endStr,
           startMs := srtTimeToMs startStr, text := textStr }

/-- Model of parseSRT: split on blank lines and collect the blocks that
parse, in source order. -/
def parseSRT (s : Str) : List Cue :=
  (splitDouble s).filterMap parseBlock

/-- The serialized form of one cue: ordinal (defaulting to the 1-based
position when the stored identifier is empty), the time range line, the
text, and a trailing newline. -/
def buildBlock (b : Cue) (i : Nat) : Str :=
  (if b.id = [] then natToStr (i + 1) else b.id) ++
  '\n' :: (b.start ++ ' ' :: '-' :: '-' :: '>' :: ' ' :: b.endS) ++
  '\n' :: b.text ++ ['\n']

/-- Model of buildSRT: blocks.map((b,i) => ...).join('\n'). -/
def buildSRTAux : Nat → List Cue → Str
  | _, [] => []
  | i, [b] => buildBlock b i
  | i, b :: rest => buildBlock b i ++ '\n' :: buildSRTAux (i + 1) rest

/-- Serialize a cue sequence back to subtitle text. -/
def buildSRT (blocks : List Cue) : Str := buildSRTAux 0 blocks

/-- Model of makePlaceholderSRT: a single 30-second cue holding the note
with newlines replaced by spaces. -/
def makePlaceholderSRT (note : Str) : Str :=
  ('1' :: '\n' :: ("00:00:00,000 --> 00:00:30,000".toList)) ++
  '\n' :: (note.map (fun c => if c = '\n' then ' ' else c)) ++ ['\n']

/-- SHA-1 fingerprint of a string, used by the source only as an opaque
token (stored, never inverted or compared for collision); modelled as the
text itself. -/
def hashStr (s : Str) : Str := s

/-- Oracles for the three remote translation engines.  A call either
returns the remote response or raises (network failure, timeout, missing
credential), modelled by Except. -/
structure TransEnv where
  cloudApi : List Str → Str → Except Unit (List Str)
  deeplApi : List Str → Str → Except Unit (List Str)
  freeApi : Str → Str → Except Unit Str

/-- DeepL target-language normalization:
to.replace('-','').slice(0,2).toUpperCase() (the replace removes only the
first dash). -/
def removeFirstDash : Str → Str
  | [] => []
  | c :: r => if c = '-' then r else c :: removeFirstDash r

/-- Normalized 2-letter uppercase DeepL language code. -/
def deepLTarget (toLang : Str) : Str :=
  ((removeFirstDash toLang).take 2).map Char.toUpper

/-- Character budget per batch. -/
def maxChars : Nat := 4000

/-- The free-engine response decoding: split the combined response on the
newline delimiter; when the count mismatches the batch size, slice the
response proportionally by the estimated average length, then pad with
empty strings or truncate (the pad/truncate branches cannot change the
list, which already has exactly n slices). -/
def freeSplitOut (joined : Str) (n : Nat) : List Str :=
  let outArr := splitLF joined
  if outArr.length = n then outArr
  else
    let avg := max 1 (joined.length / n)
    let sliced := (List.range n).map (fun i => (joined.drop (i * avg)).take avg)
    if sliced.length < n then sliced ++ List.replicate (n - sliced.length) []
    else sliced.take n

/-- One engine call for a flushed batch, dispatched on the engine name
exactly as the flush body does. -/
def engineOut (env : TransEnv) (engine toLang : Str) (batch : List Str) :
    Except Unit (List Str) :=
  if engine = ("google_cloud".toList) then env.cloudApi batch toLang
  else if engine = ("deepl".toList) then env.deeplApi batch (deepLTarget toLang)
  else
    match env.freeApi (joinWith '\n' batch) toLang with
    | Except.error e => Except.error e
    | Except.ok joined => Except.ok (freeSplitOut joined batch.length)

/-- Merge a batch response back: results[idxBatch[i]] = outArr[i] || ''. -/
def writeBack : List Str → List Nat → List Str → List Str
  | results, [], _ => results
  | results, j :: js, outArr =>
    writeBack (results.set j (outArr.headD [])) js outArr.tail

/-- Mutable state of the batching loop, plus a ghost trace of every
dispatched batch (the indices it serves and the texts sent). -/
structure BatchState where
  results : List Str
  batch : List Str
  idxBatch : List Nat
  len : Nat
  calls : List (List Nat × List Str)

/-- The flush closure: nothing to do on an empty batch; otherwise one
engine call whose failure is caught, leaving that batch's results
untouched; the batch accumulator is reset either way. -/
def flushB (env : TransEnv) (engine toLang : Str) (st : BatchState) : BatchState :=
  if st.batch = [] then st
  else
    let results' :=
      match engineOut env engine toLang st.batch with
      | Except.ok outArr => writeBack st.results st.idxBatch outArr
      | Except.error _ => st.results
    { results := results', batch := [], idxBatch := [], len := 0,
      calls := st.calls ++ [(st.idxBatch, st.batch)] }

/-- Main loop of batchTranslateSentences: trim, pass empties through,
flush when the budget would be exceeded, accumulate otherwise. -/
def btsLoop (env : TransEnv) (toLang engine : Str) :
    Nat → List Str → BatchState → BatchState
  | _, [], st => flushB env engine toLang st
  | i, s :: rest, st =>
    let t := jsTrim s
    if t = [] then
      btsLoop env toLang engine (i + 1) rest
        { st with results := st.results.set i [] }
    else
      let st1 := if maxChars < st.len + t.length + 1 ∧ st.batch ≠ [] then
        flushB env engine toLang st else st
      btsLoop env toLang engine (i + 1) rest
        { st1 with batch := st1.batch ++ [t], idxBatch := st1.idxBatch ++ [i],
                   len := st1.len + t.length + 1 }

/-- Traced form of batchTranslateSentences: the aligned results plus the
ghost trace of dispatched batches. -/
def batchTranslateT (env : TransEnv) (sentences : List Str) (toLang engine : Str) :
    BatchState :=
  btsLoop env toLang engine 0 sentences
    { results := List.replicate sentences.length [], batch := [],
      idxBatch := [], len := 0, calls := [] }

/-- Model of batchTranslateSentences: the results array. -/
def batchTranslateSentences (env : TransEnv) (sentences : List Str)
    (toLang engine : Str) : List Str :=
  (batchTranslateT env sentences toLang engine).results

/-- Rebuild of the cue sequence by the job: substitute the translation
where it is non-empty (JavaScript truthiness), keep the original text
where it is empty or missing. -/
def rebuildBlocks (blocks : List Cue) (translated : List Str) : List Cue :=
  blocks.mapIdx (fun i b =>
    { b with text := if translated.getD i [] ≠ [] then translated.getD i []
                     else b.text })

/-- Persisted record of translation_cache for one key. -/
structure CacheEntry where
  toLang : Str
  engine : Str
  sourceHash : Str
  srt : Str
  status : Str
deriving DecidableEq, Repr

/-- The cache entry the asynchronous job body finally upserts for its key:
on success the rebuilt, serialized artifact with status done; on any
exception in the path (crash flag) status error with empty artifact and
empty hash. -/
def submitTranslationJobEntry (env : TransEnv) (crash : Bool)
    (subtitleText toLang engine : Str) : CacheEntry :=
  if crash then
    { toLang := toLang, engine := engine, sourceHash := [], srt := [],
      status := "error".toList }
  else
    let blocks := parseSRT subtitleText
    let texts := blocks.map (fun b => b.text)
    let translated := batchTranslateSentences env texts toLang engine
    let finalSrt := buildSRT (rebuildBlocks blocks translated)
    { toLang := toLang, engine := engine, sourceHash := hashStr subtitleText,
      srt := finalSrt, status := "done".toList }

/-- Immediate response of the subtitles handler. -/
inductive SubResponse where
  | cachedHit (srt : Str)
  | directFound (url : Str)
  | notFound
  | placeholderFor (toLang engine : Str)
deriving DecidableEq, Repr

/-- Per-request oracle inputs of the subtitles handler: the cache row for
the computed key, the two OpenSubtitles lookups (none covers both absence
and a caught search error), the download, the translation oracles, and
whether the asynchronous job crashes somewhere. -/
structure SubsEnv where
  cached : Option CacheEntry
  searchTarget : Option Str
  searchEn : Option Str
  download : Str → Str
  trans : TransEnv
  crash : Bool

/-- Observable outcome of one handler invocation: the synchronous
response, the translation_cache writes for the computed key in order, and
the launched job's request (subtitle text, target language, engine) when
one is submitted. -/
structure HandlerOutcome where
  response : SubResponse
  writes : List CacheEntry
  job : Option (Str × Str × Str)
deriving DecidableEq, Repr

/-- The manifest config section, keys with their defaults. -/
def manifestConfig : List (Str × Str) :=
  [("to".toList, "zh-CN".toList), ("engine".toList, "google_free".toList)]

/-- Config resolution exactly as the handler performs it:
manifest.config.find(c => c.key === k)?.default || fallback. -/
def resolveConfig (key fallback : Str) : Str :=
  match manifestConfig.find? (fun c => c.1 = key) with
  | some c => if c.2 = [] then fallback else c.2
  | none => fallback

/-- Continuation of the handler after a cache miss: the native-first
search, the English fallback, the pending write and the job launch. -/
def subtitlesHandlerRest (env : SubsEnv) (imdbPresent : Bool) (source : Str)
    (toLang engine : Str) : HandlerOutcome :=
  if imdbPresent then
    match env.searchTarget with
    | some url =>
      let originalText := env.download url
      { response := SubResponse.directFound url,
        writes := [{ toLang := toLang, engine := engine,
                     sourceHash := hashStr originalText, srt := originalText,
                     status := "done".toList }],
        job := none }
    | none =>
      match env.searchEn with
      | none => { response := SubResponse.notFound, writes := [], job := none }
      | some url =>
        let originalText := env.download url
        { response := SubResponse.placeholderFor toLang engine,
          writes := [{ toLang := toLang, engine := engine,
                       sourceHash := hashStr originalText, srt := [],
                       status := "pending".toList }],
          job := some (originalText, toLang, engine) }
  else
    let originalText := env.download source
    { response := SubResponse.placeholderFor toLang engine,
      writes := [{ toLang := toLang, engine := engine,
                   sourceHash := hashStr originalText, srt := [],
                   status := "pending".toList }],
      job := some (originalText, toLang, engine) }

/-- Model of the defineSubtitlesHandler body.  defaultTo and engineVar are
the DEFAULT_TO and ENGINE environment values; imdbPresent selects the
catalog branch, source is the raw source URL of the other branch.  The
cache short-circuits only on status done with a non-empty artifact. -/
def subtitlesHandler (env : SubsEnv) (imdbPresent : Bool) (source : Str)
    (defaultTo engineVar : Str) : HandlerOutcome :=
  let toLang := resolveConfig ("to".toList) defaultTo
  let engine := resolveConfig ("engine".toList) engineVar
  match env.cached with
  | some c =>
    if c.status = ("done".toList) ∧ c.srt ≠ [] then
      { response := SubResponse.cachedHit c.srt, writes := [], job := none }
    else subtitlesHandlerRest env imdbPresent source toLang engine
  | none => subtitlesHandlerRest env imdbPresent source toLang engine

/-! ### Specification-side definitions used as comparison points -/

/-- Indexed, trimmed, non-empty cue texts of the input, in order: the
sentences the Batcher is supposed to dispatch.  Written after the spec's
words for the refinement proof of the batching loop. -/
def trimmedIndexed (sentences : List Str) : List (Nat × Str) :=
  sentences.enum.filterMap (fun p =>
    let t := jsTrim p.2
    if t = [] then none else some (p.1, t))

/-- Greedy packing of the trimmed sentences into batches bounded by the
shared character budget: a batch is closed when adding the next text would
exceed the budget, per the spec of the Batcher. -/
def specPackAux : List (Nat × Str) → List (Nat × Str) → Nat →
    List (List (Nat × Str))
  | [], cur, _ => if cur = [] then [] else [cur]
  | (i, t) :: rest, cur, len =>
    if maxChars < len + t.length + 1 ∧ cur ≠ [] then
      cur :: specPackAux rest [(i, t)] (t.length + 1)
    else specPackAux rest (cur ++ [(i, t)]) (len + t.length + 1)

/-- The batches one run of the Batcher dispatches, per the spec. -/
def specGroups (sentences : List Str) : List (List (Nat × Str)) :=
  specPackAux (trimmedIndexed sentences) [] 0

/-- Response of one spec-side batch: dispatch it and merge the aligned
answers back at the original indices (failures leave the batch blank). -/
def applyGroup (env : TransEnv) (engine toLang : Str) (r : List Str)
    (g : List (Nat × Str)) : List Str :=
  match engineOut env engine toLang (g.map Prod.snd) with
  | Except.ok outArr => writeBack r (g.map Prod.fst) outArr
  | Except.error _ => r

/-- Spec-side result of the Batcher: start from all-empty answers and merge
each dispatched batch by original index. -/
def specBatchResults (env : TransEnv) (sentences : List Str)
    (toLang engine : Str) : List Str :=
  (specGroups sentences).foldl (applyGroup env engine toLang)
    (List.replicate sentences.length [])

/-- Sortedness of a cue sequence by the derived start-time milliseconds. -/
def isSortedByStart : List Cue → Bool
  | [] => true
  | [_] => true
  | a :: b :: r => (a.startMs ≤ b.startMs) && isSortedByStart (b :: r)

/-- Comparison key of a cue for the round-trip statement: the start and end
timestamp strings and the text (the ordinal may renumber). -/
def cueKey (b : Cue) : Str × Str × Str := (b.start, b.endS, b.text)

/-! ### Concrete inputs for the counterexamples and witnesses -/

/-- Translation oracles that always fail; used where the oracle is
irrelevant to the statement. -/
def idleTrans : TransEnv :=
  { cloudApi := fun _ _ => Except.error (),
    deeplApi := fun _ _ => Except.error (),
    freeApi := fun _ _ => Except.error () }

/-- A small well-formed subtitle text. -/
def sampleSrt : Str := ("1\n00:00:01,000 --> 00:00:02,000\nHello").toList

/-- A cache entry left in pending state for the computed key. -/
def pendingEntry : CacheEntry :=
  { toLang := ("zh-CN").toList, engine := ("google_free").toList,
    sourceHash := [], srt := [], status := ("pending").toList }

/-- The same cache entry left in error state. -/
def errorEntry : CacheEntry :=
  { toLang := ("zh-CN").toList, engine := ("google_free").toList,
    sourceHash := [], srt := [], status := ("error").toList }

/-- Request environment in which the cache already holds a pending entry
for the key and an English source subtitle is available. -/
def c1Env : SubsEnv :=
  { cached := some pendingEntry, searchTarget := none,
    searchEn := some (("http://e").toList),
    download := fun _ => sampleSrt, trans := idleTrans, crash := false }

/-- Request environment with an empty cache and an English source found. -/
def c9Env : SubsEnv :=
  { cached := none, searchTarget := none,
    searchEn := some (("http://e").toList),
    download := fun _ => sampleSrt, trans := idleTrans, crash := false }

/-- Left half of the unordered source: the later cue. -/
def c2u : Str := ("1\n00:00:10,000 --> 00:00:11,000\nB").toList

/-- Right half of the unordered source: the earlier cue. -/
def c2v : Str := ("2\n00:00:01,000 --> 00:00:02,000\nA").toList

/-- Source text whose blocks are not ordered by start time. -/
def c2src : Str :=
  ("1\n00:00:10,000 --> 00:00:11,000\nB\n\n2\n00:00:01,000 --> 00:00:02,000\nA").toList

/-- Source text whose only cue text contains a carriage return kept by the
first parse (the line ab CR survives because the block splitter consumes
only the CR directly before a LF). -/
def c3src : Str :=
  ("1\n00:00:00,000 --> 00:00:01,000\nab" ++ "\r" ++ "\r\ncd").toList

/-- A block with an identifier and a time line but empty text. -/
def c7src : Str := ("5\n00:00:00,000 --> 00:00:01,000").toList

/-- Request environment whose cache entry is in error state and whose
English search succeeds. -/
def c5Env (b : Bool) : SubsEnv :=
  { cached := some errorEntry, searchTarget := none,
    searchEn := some (("http://e").toList),
    download := fun _ => sampleSrt, trans := idleTrans, crash := b }

/-- Request environment with empty cache and both searches empty. -/
def c8Env : SubsEnv :=
  { cached := none, searchTarget := none, searchEn := none,
    download := fun _ => [], trans := idleTrans, crash := false }


/-- Adjacent-double-line-feed test (two LF characters in a row). -/
def hasNN : Str → Bool
  | c1 :: c2 :: r => (c1 = '\n' && c2 = '\n') || hasNN (c2 :: r)
  | _ => false

/-- The ordinal actually serialized for a cue: the stored identifier, or
the 1-based position when it is empty. -/
def idOf (b : Cue) (i : Nat) : Str :=
  if b.id = [] then natToStr (i + 1) else b.id

/-- The serialized time-range line of a cue. -/
def tlOf (b : Cue) : Str :=
  b.start ++ ' ' :: '-' :: '-' :: '>' :: ' ' :: b.endS

/-- The serialized block of a cue without the trailing newline. -/
def coreOf (b : Cue) (i : Nat) : Str :=
  idOf b i ++ '\n' :: tlOf b ++ '\n' :: b.text

/-- The cue the reparse of a serialized block yields. -/
def cueOf (b : Cue) (i : Nat) : Cue :=
  { id := idOf b i, start := b.start, endS := b.endS,
    startMs := srtTimeToMs b.start, text := b.text }

/-- Invariants of every cue produced by parseSRT on carriage-return-free
input: fields are trimmed, free of line breaks and of the arrow separator,
and the text contains no two adjacent line feeds. -/
structure CueInv (b : Cue) : Prop where
  id_nl : '\n' ∉ b.id
  id_cr : '\r' ∉ b.id
  id_arrow : hasArrow b.id = false
  id_trim : jsTrim b.id = b.id
  start_nl : '\n' ∉ b.start
  start_cr : '\r' ∉ b.start
  start_arrow : hasArrow b.start = false
  start_trim : jsTrim b.start = b.start
  end_nl : '\n' ∉ b.endS
  end_cr : '\r' ∉ b.endS
  end_arrow : hasArrow b.endS = false
  end_trim : jsTrim b.endS = b.endS
  text_cr : '\r' ∉ b.text
  text_trim : jsTrim b.text = b.text
  text_nn : hasNN b.text = false

/-- The expected reparse of a serialized cue list starting at block index i:
each cue with its ordinal resolved. -/
def cuesOf : Nat → List Cue → List Cue
  | _, [] => []
  | i, b :: rest => cueOf b i :: cuesOf (i + 1) rest

/-- Default cue value for positional lookups. -/
def dfltCue : Cue := { id := [], start := [], endS := [], startMs := 0, text := [] }

/-- Indexed trimmed non-empty texts of the input suffix starting at
position i; the loop invariant form of trimmedIndexed. -/
def trimmedIndexedFrom (sentences : List Str) (i : Nat) : List (Nat × Str) :=
  (sentences.enumFrom i).filterMap (fun p =>
    let t := jsTrim p.2
    if t = [] then none else some (p.1, t))

/-- The ghost-trace record of one dispatched batch. -/
def groupTrace (g : List (Nat × Str)) : List Nat × List Str :=
  (g.map Prod.fst, g.map Prod.snd)

/-! ### Theorems -/

/-- C1: the claim says a `pending` cache entry blocks creation of a second
job for the key.  Evaluating the handler on a request whose cache entry is
`pending` (with an English source available) shows the opposite: the cache
check passes only on status done with non-empty artifact, so the handler
falls through, overwrites the entry and submits a second job. -/
theorem c1_pending_entry_relaunches_job :
    c1Env.cached = some pendingEntry ∧
    pendingEntry.status = ("pending").toList ∧
    (subtitlesHandler c1Env true [] (("zh-CN").toList)
        (("google_free").toList)).job = some (sampleSrt, ("zh-CN").toList,
          ("google_free").toList) ∧
    (subtitlesHandler c1Env true [] (("zh-CN").toList)
        (("google_free").toList)).writes.map CacheEntry.status =
      [("pending").toList] := by
  refine ⟨rfl, rfl, ?_, ?_⟩ <;> rfl

/-- C5: any exception in the asynchronous job path upserts the entry to
status error with an empty artifact; the synchronous response is computed
independently of the job outcome (so the exception never reaches the
original request); and a later identical request that observes the error
entry falls through the cache check and relaunches a job. -/
theorem c5_job_error_contained_and_retryable
    (tenv : TransEnv) (text toT engT : Str)
    (env : SubsEnv) (source defaultTo engineVar url : Str) (c : CacheEntry)
    (hc : env.cached = some c) (hs : c.status = ("error").toList)
    (ht : env.searchTarget = none) (he : env.searchEn = some url) :
    (submitTranslationJobEntry tenv true text toT engT).status =
        ("error").toList ∧
    (submitTranslationJobEntry tenv true text toT engT).srt = [] ∧
    (∀ b₁ b₂ : Bool,
      (subtitlesHandler { env with crash := b₁ } true source defaultTo
          engineVar).response =
      (subtitlesHandler { env with crash := b₂ } true source defaultTo
          engineVar).response) ∧
    (subtitlesHandler env true source defaultTo engineVar).job ≠ none := by
  have hne : ¬(c.status = ("done").toList ∧ c.srt ≠ []) := by
    rintro ⟨h1, -⟩
    rw [hs] at h1
    exact absurd h1 (by decide)
  refine ⟨rfl, rfl, ?_, ?_⟩
  · intro b₁ b₂
    simp only [subtitlesHandler, subtitlesHandlerRest, hc, hs, ht, he, hne,
      if_false, if_true]
  · simp only [subtitlesHandler, subtitlesHandlerRest, hc, hne, ht, he,
      if_false, if_true]
    simp

/-- Witness for C5 at a concrete environment whose cache entry is in error
state and whose English search succeeds. -/
theorem c5_witness :
    (submitTranslationJobEntry idleTrans true [] [] []).status =
        ("error").toList ∧
    (submitTranslationJobEntry idleTrans true [] [] []).srt = [] ∧
    (∀ b₁ b₂ : Bool,
      (subtitlesHandler { c5Env false with crash := b₁ } true [] [] []).response =
      (subtitlesHandler { c5Env false with crash := b₂ } true [] [] []).response) ∧
    (subtitlesHandler (c5Env false) true [] [] []).job ≠ none := by
  exact c5_job_error_contained_and_retryable idleTrans [] [] [] (c5Env false)
    [] [] [] (("http://e").toList) errorEntry rfl rfl rfl rfl

/-- C8: with a content identifier present, no native target-language
subtitle and no English fallback either, the handler reports not found,
writes nothing to the translation cache and creates no job. -/
theorem c8_not_found_writes_nothing
    (env : SubsEnv) (source defaultTo engineVar : Str)
    (hc : ∀ c, env.cached = some c → ¬(c.status = ("done").toList ∧ c.srt ≠ []))
    (ht : env.searchTarget = none) (he : env.searchEn = none) :
    subtitlesHandler env true source defaultTo engineVar =
      { response := SubResponse.notFound, writes := [], job := none } := by
  cases hcc : env.cached with
  | none =>
    simp only [subtitlesHandler, subtitlesHandlerRest, hcc, ht, he, if_true]
  | some c =>
    have := hc c hcc
    simp only [subtitlesHandler, subtitlesHandlerRest, hcc, ht, he, this,
      if_false, if_true]

/-- Witness for C8 at a concrete environment with empty cache and both
searches empty. -/
theorem c8_witness :
    subtitlesHandler c8Env true [] [] [] =
      { response := SubResponse.notFound, writes := [], job := none } := by
  exact c8_not_found_writes_nothing c8Env [] [] []
    (by intro c h; cases h) rfl rfl

/-- C9: the claim says the configured engine E is the engine the job
dispatches to.  The handler resolves the engine from the manifest config
defaults, and the default google_free is non-empty, so the ENGINE
configuration value is dead: with ENGINE set to deepl the submitted job
still carries engine google_free. -/
theorem c9_engine_config_ignored :
    (∀ fallback : Str,
      resolveConfig (("engine").toList) fallback = ("google_free").toList) ∧
    (subtitlesHandler c9Env true [] (("zh-CN").toList)
        (("deepl").toList)).job =
      some (sampleSrt, ("zh-CN").toList, ("google_free").toList) ∧
    ("google_free").toList ≠ ("deepl").toList := by
  refine ⟨fun fallback => rfl, rfl, by decide⟩

/-- C7 counterexample: a cue whose source text is empty stays empty after
the rebuild (its translation is empty, the fallback substitutes the
original empty text), and the empty-text cue survives into the serialized
artifact; so the claim that no cue in the artifact ever has literally
empty text fails. -/
theorem c7_counterexample :
    (∃ b ∈ rebuildBlocks (parseSRT c7src) [[]], b.text = []) ∧
    (∃ b ∈ parseSRT (buildSRT (rebuildBlocks (parseSRT c7src) [[]])),
      b.text = []) := by
  decide

/-- C7 amended: the rebuild keeps each cue whose translation is empty at
the original-language text, and an output cue can have empty text only
when the original cue text was already empty. -/
theorem c7_empty_translation_keeps_original
    (blocks : List Cue) (translated : List Str) (i : Nat)
    (hi : i < blocks.length) :
    (rebuildBlocks blocks translated).length = blocks.length ∧
    (translated.getD i [] = [] →
      ((rebuildBlocks blocks translated).getD i dfltCue).text =
        (blocks.getD i dfltCue).text) ∧
    (((rebuildBlocks blocks translated).getD i dfltCue).text = [] →
      (blocks.getD i dfltCue).text = []) := by
  have hlen : (rebuildBlocks blocks translated).length = blocks.length := by
    simp [rebuildBlocks]
  have hi' : i < (rebuildBlocks blocks translated).length := by omega
  have hget : (rebuildBlocks blocks translated)[i] =
      { blocks[i] with
        text := if translated.getD i [] ≠ [] then translated.getD i []
                else blocks[i].text } := by
    simp [rebuildBlocks, List.getD]
  refine ⟨hlen, ?_, ?_⟩
  · intro hempty
    have hempty2 : translated[i]?.getD [] = [] := by
      rw [← List.getD_eq_getElem?_getD]; exact hempty
    rw [List.getD_eq_getElem _ _ hi', List.getD_eq_getElem _ _ hi, hget]
    simp [List.getD_eq_getElem?_getD, hempty2]
  · intro hout
    rw [List.getD_eq_getElem _ _ hi', hget] at hout
    rw [List.getD_eq_getElem _ _ hi]
    simp only [List.getD_eq_getElem?_getD] at hout
    by_cases hts : translated[i]?.getD ([] : Str) = []
    · simpa [hts] using hout
    · simp [hts] at hout

/-- Witness for C7 amended at a one-cue input with an empty translation. -/
theorem c7_witness :
    (rebuildBlocks (parseSRT sampleSrt) [[]]).length =
        (parseSRT sampleSrt).length ∧
    ([[]].getD 0 ([] : Str) = [] →
      ((rebuildBlocks (parseSRT sampleSrt) [[]]).getD 0 dfltCue).text =
        ((parseSRT sampleSrt).getD 0 dfltCue).text) ∧
    (((rebuildBlocks (parseSRT sampleSrt) [[]]).getD 0 dfltCue).text = [] →
      ((parseSRT sampleSrt).getD 0 dfltCue).text = []) := by
  exact c7_empty_translation_keeps_original (parseSRT sampleSrt) [[]] 0
    (by decide)

/-! ### Batcher lemmas -/

theorem writeBack_length (idx : List Nat) (r outArr : List Str) :
    (writeBack r idx outArr).length = r.length := by
  induction idx generalizing r outArr with
  | nil => rfl
  | cons j js ih => simp [writeBack, ih, List.length_set]

theorem writeBack_getElem?_not_mem (idx : List Nat) (r outArr : List Str)
    (j : Nat) (hj : j ∉ idx) :
    (writeBack r idx outArr)[j]? = r[j]? := by
  induction idx generalizing r outArr with
  | nil => rfl
  | cons k ks ih =>
    simp only [List.mem_cons, not_or] at hj
    simp only [writeBack]
    rw [ih _ _ hj.2, List.getElem?_set_ne (fun h => hj.1 h.symm)]

theorem applyGroup_length (env : TransEnv) (eng toL : Str) (r : List Str)
    (g : List (Nat × Str)) : (applyGroup env eng toL r g).length = r.length := by
  unfold applyGroup
  cases engineOut env eng toL (g.map Prod.snd) with
  | ok outArr => exact writeBack_length _ _ _
  | error e => rfl

theorem applyGroup_getElem?_not_mem (env : TransEnv) (eng toL : Str)
    (r : List Str) (g : List (Nat × Str)) (j : Nat)
    (hj : ∀ p ∈ g, p.1 ≠ j) :
    (applyGroup env eng toL r g)[j]? = r[j]? := by
  unfold applyGroup
  cases engineOut env eng toL (g.map Prod.snd) with
  | ok outArr =>
    refine writeBack_getElem?_not_mem _ _ _ _ ?_
    intro hmem
    rcases List.mem_map.mp hmem with ⟨p, hp, hpe⟩
    exact hj p hp hpe
  | error e => rfl

theorem foldl_applyGroup_length (env : TransEnv) (eng toL : Str)
    (gs : List (List (Nat × Str))) (r : List Str) :
    (gs.foldl (applyGroup env eng toL) r).length = r.length := by
  induction gs generalizing r with
  | nil => rfl
  | cons g gs ih => rw [List.foldl_cons, ih, applyGroup_length]

theorem foldl_applyGroup_getElem?_not_mem (env : TransEnv) (eng toL : Str)
    (gs : List (List (Nat × Str))) (r : List Str) (j : Nat)
    (hj : ∀ g ∈ gs, ∀ p ∈ g, p.1 ≠ j) :
    (gs.foldl (applyGroup env eng toL) r)[j]? = r[j]? := by
  induction gs generalizing r with
  | nil => rfl
  | cons g gs ih =>
    rw [List.foldl_cons, ih _ (fun g2 h2 => hj g2 (List.mem_cons_of_mem _ h2)),
      applyGroup_getElem?_not_mem _ _ _ _ _ _ (hj g (List.mem_cons_self _ _))]

theorem set_nil_eq_self (r : List Str) (i : Nat) (h : r.getD i [] = []) :
    r.set i [] = r := by
  refine List.ext_getElem?_iff.mpr ?_
  intro j
  by_cases hji : i = j
  · subst hji
    by_cases hlen : i < r.length
    · rw [List.getElem?_set_self hlen]
      rw [List.getD_eq_getElem _ _ hlen] at h
      rw [List.getElem?_eq_getElem hlen, h]
    · rw [List.getElem?_eq_none (by simp; omega),
        List.getElem?_eq_none (by omega)]
  · exact List.getElem?_set_ne hji

theorem specPackAux_flatten (l cur : List (Nat × Str)) (len : Nat) :
    (specPackAux l cur len).flatten = cur ++ l := by
  induction l generalizing cur len with
  | nil =>
    by_cases hc : cur = [] <;> simp [specPackAux, hc]
  | cons p rest ih =>
    rcases p with ⟨i, t⟩
    by_cases hex : maxChars < len + t.length + 1 ∧ cur ≠ []
    · simp [specPackAux, hex, ih]
    · simp [specPackAux, hex, ih]

theorem mem_trimmedIndexedFrom {ss : List Str} {i j : Nat} {t : Str}
    (h : (j, t) ∈ trimmedIndexedFrom ss i) :
    i ≤ j ∧ ∃ s, ss[j - i]? = some s ∧ t = jsTrim s ∧ jsTrim s ≠ [] := by
  unfold trimmedIndexedFrom at h
  rcases List.mem_filterMap.mp h with ⟨⟨k, s⟩, hks, hf⟩
  simp only at hf
  by_cases he : jsTrim s = []
  · simp [he] at hf
  · simp only [he, if_false, if_neg he, Option.some.injEq, Prod.mk.injEq] at hf
    rcases hf with ⟨rfl, rfl⟩
    have := List.mk_mem_enumFrom_iff_le_and_getElem?_sub.mp hks
    exact ⟨this.1, s, this.2, rfl, he⟩

/-- One step of the loop/spec correspondence: starting from a state whose
accumulator holds the pending group cur (indices all below i) and whose
results are already blank at every still-unprocessed blank position, the
loop computes exactly the spec-side fold over the remaining groups and
appends exactly their traces. -/
theorem btsLoop_eq_spec (env : TransEnv) (toL eng : Str) :
    ∀ (ss : List Str) (i : Nat) (cur : List (Nat × Str)) (len : Nat)
      (r : List Str) (calls : List (List Nat × List Str)),
    (∀ p ∈ cur, p.1 < i) →
    (∀ j s, (j, s) ∈ ss.enumFrom i → jsTrim s = [] → r.getD j [] = []) →
    (btsLoop env toL eng i ss
        { results := r, batch := cur.map Prod.snd,
          idxBatch := cur.map Prod.fst, len := len, calls := calls }).results =
      (specPackAux (trimmedIndexedFrom ss i) cur len).foldl
          (applyGroup env eng toL) r ∧
    (btsLoop env toL eng i ss
        { results := r, batch := cur.map Prod.snd,
          idxBatch := cur.map Prod.fst, len := len, calls := calls }).calls =
      calls ++ (specPackAux (trimmedIndexedFrom ss i) cur len).map groupTrace := by
  intro ss
  induction ss with
  | nil =>
    intro i cur len r calls h1 h2
    by_cases hc : cur = []
    · subst hc
      simp [btsLoop, flushB, trimmedIndexedFrom, specPackAux]
    · have hb : cur.map Prod.snd ≠ [] := by simpa using hc
      refine ⟨?_, ?_⟩ <;>
        simp [btsLoop, flushB, hb, trimmedIndexedFrom, specPackAux, hc,
          applyGroup, groupTrace]
  | cons s rest ih =>
    intro i cur len r calls h1 h2
    have hmemi : (i, s) ∈ (s :: rest).enumFrom i := by
      rw [List.enumFrom_cons]
      exact List.mem_cons_self _ _
    have haug : trimmedIndexedFrom (s :: rest) i =
        (if jsTrim s = [] then [] else [(i, jsTrim s)]) ++
          trimmedIndexedFrom rest (i + 1) := by
      by_cases ht : jsTrim s = [] <;>
        simp [trimmedIndexedFrom, List.enumFrom_cons, ht]
    by_cases ht : jsTrim s = []
    · have hset : r.set i [] = r :=
        set_nil_eq_self r i (h2 i s hmemi ht)
      have hstep : btsLoop env toL eng i (s :: rest)
          { results := r, batch := cur.map Prod.snd,
            idxBatch := cur.map Prod.fst, len := len, calls := calls } =
          btsLoop env toL eng (i + 1) rest
          { results := r.set i [], batch := cur.map Prod.snd,
            idxBatch := cur.map Prod.fst, len := len, calls := calls } := by
        simp [btsLoop, ht]
      rw [hstep, hset, haug]
      simp only [ht, if_true, List.nil_append]
      exact ih (i + 1) cur len r calls
        (fun p hp => Nat.lt_succ_of_lt (h1 p hp))
        (fun j s2 hmem hts => h2 j s2 (by rw [List.enumFrom_cons]; exact List.mem_cons_of_mem _ hmem) hts)
    · rw [haug]
      simp only [ht, if_false, List.singleton_append]
      by_cases hex : maxChars < len + (jsTrim s).length + 1 ∧ cur ≠ []
      · have hbne : cur.map Prod.snd ≠ [] := by simpa using hex.2
        have hstep : btsLoop env toL eng i (s :: rest)
            { results := r, batch := cur.map Prod.snd,
              idxBatch := cur.map Prod.fst, len := len, calls := calls } =
            btsLoop env toL eng (i + 1) rest
            { results := applyGroup env eng toL r cur,
              batch := [jsTrim s], idxBatch := [i],
              len := (jsTrim s).length + 1,
              calls := calls ++ [groupTrace cur] } := by
          simp [btsLoop, ht, hex.1, hbne, flushB, applyGroup, groupTrace]
        have hspec : specPackAux ((i, jsTrim s) :: trimmedIndexedFrom rest (i + 1)) cur len =
            cur :: specPackAux (trimmedIndexedFrom rest (i + 1)) [(i, jsTrim s)]
              ((jsTrim s).length + 1) := by
          rw [specPackAux, if_pos hex]
        have hr : ∀ j s2, (j, s2) ∈ rest.enumFrom (i + 1) → jsTrim s2 = [] →
            (applyGroup env eng toL r cur).getD j [] = [] := by
          intro j s2 hmem hts
          have hj : i + 1 ≤ j :=
            (List.mk_mem_enumFrom_iff_le_and_getElem?_sub.mp hmem).1
          have hne : ∀ p ∈ cur, p.1 ≠ j := by
            intro p hp
            have := h1 p hp
            omega
          rw [List.getD_eq_getElem?_getD, applyGroup_getElem?_not_mem _ _ _ _ _ _ hne,
            ← List.getD_eq_getElem?_getD]
          exact h2 j s2 (by rw [List.enumFrom_cons]; exact List.mem_cons_of_mem _ hmem) hts
        have hih := ih (i + 1) [(i, jsTrim s)] ((jsTrim s).length + 1)
          (applyGroup env eng toL r cur) (calls ++ [groupTrace cur])
          (by intro p hp; simp at hp; subst hp; omega) hr
        have hc1 : ([(i, jsTrim s)] : List (Nat × Str)).map Prod.snd = [jsTrim s] := rfl
        have hc2 : ([(i, jsTrim s)] : List (Nat × Str)).map Prod.fst = [i] := rfl
        rw [hc1, hc2] at hih
        rw [hstep, hspec]
        refine ⟨?_, ?_⟩
        · rw [List.foldl_cons]
          exact hih.1
        · rw [hih.2, List.map_cons, List.append_assoc]
          rfl
      · have hstep : btsLoop env toL eng i (s :: rest)
            { results := r, batch := cur.map Prod.snd,
              idxBatch := cur.map Prod.fst, len := len, calls := calls } =
            btsLoop env toL eng (i + 1) rest
            { results := r,
              batch := cur.map Prod.snd ++ [jsTrim s],
              idxBatch := cur.map Prod.fst ++ [i],
              len := len + (jsTrim s).length + 1, calls := calls } := by
          have hex2 : ¬(maxChars < len + (jsTrim s).length + 1 ∧
              cur.map Prod.snd ≠ []) := by
            intro hx
            exact hex ⟨hx.1, by simpa using hx.2⟩
          simp [btsLoop, ht, hex2, hex]
        have hspec : specPackAux ((i, jsTrim s) :: trimmedIndexedFrom rest (i + 1)) cur len =
            specPackAux (trimmedIndexedFrom rest (i + 1)) (cur ++ [(i, jsTrim s)])
              (len + (jsTrim s).length + 1) := by
          rw [specPackAux, if_neg hex]
        have hih := ih (i + 1) (cur ++ [(i, jsTrim s)]) (len + (jsTrim s).length + 1)
          r calls
          (by
            intro p hp
            rcases List.mem_append.mp hp with hp2 | hp2
            · exact Nat.lt_succ_of_lt (h1 p hp2)
            · simp at hp2; subst hp2; omega)
          (fun j s2 hmem hts => h2 j s2 (by rw [List.enumFrom_cons]; exact List.mem_cons_of_mem _ hmem) hts)
        rw [List.map_append, List.map_append] at hih
        have hc1 : ([(i, jsTrim s)] : List (Nat × Str)).map Prod.snd = [jsTrim s] := rfl
        have hc2 : ([(i, jsTrim s)] : List (Nat × Str)).map Prod.fst = [i] := rfl
        rw [hc1, hc2] at hih
        rw [hstep, hspec]
        exact hih

/-- The Batcher loop started from its initial state computes the spec-side
results and dispatches exactly the spec-side batches. -/
theorem batchTranslate_eq_spec (env : TransEnv) (ss : List Str)
    (toL eng : Str) :
    batchTranslateSentences env ss toL eng = specBatchResults env ss toL eng ∧
    (batchTranslateT env ss toL eng).calls = (specGroups ss).map groupTrace := by
  have h := btsLoop_eq_spec env toL eng ss 0 [] 0
    (List.replicate ss.length []) []
    (by intro p hp; cases hp)
    (by
      intro j s2 hmem hts
      rw [List.getD_eq_getElem?_getD]
      by_cases hj : j < ss.length
      · rw [List.getElem?_replicate_of_lt hj]
        rfl
      · rw [List.getElem?_eq_none (by simpa using hj)]
        rfl)
  have he : trimmedIndexedFrom ss 0 = trimmedIndexed ss := rfl
  rw [he] at h
  exact h

/-- C4: for every input, every engine and every oracle behavior, the
Batcher returns exactly one output per input, and the result equals the
spec-side computation that dispatches the greedily packed batches and
merges each answer back at the original index (index alignment). -/
theorem c4_batch_length_and_alignment (env : TransEnv) (ss : List Str)
    (toL eng : Str) :
    (batchTranslateSentences env ss toL eng).length = ss.length ∧
    batchTranslateSentences env ss toL eng = specBatchResults env ss toL eng := by
  have h := batchTranslate_eq_spec env ss toL eng
  refine ⟨?_, h.1⟩
  rw [h.1]
  unfold specBatchResults
  rw [foldl_applyGroup_length, List.length_replicate]

/-- An index whose sentence trims to empty is in no dispatched batch and
its result stays the empty string. -/
theorem trimEmpty_untouched (env : TransEnv) (ss : List Str) (toL eng : Str)
    (i : Nat) (hw : jsTrim (ss.getD i []) = []) :
    (batchTranslateSentences env ss toL eng).getD i [] = [] ∧
    ∀ p ∈ (batchTranslateT env ss toL eng).calls, i ∉ p.1 := by
  have hspec := batchTranslate_eq_spec env ss toL eng
  have hnotin : ∀ g ∈ specGroups ss, ∀ p ∈ g, p.1 ≠ i := by
    intro g hg p hp hpe
    have hjoin : p ∈ (specGroups ss).flatten :=
      List.mem_flatten_of_mem hg hp
    rw [specGroups, specPackAux_flatten, List.nil_append] at hjoin
    rcases p with ⟨j, t⟩
    rcases mem_trimmedIndexedFrom (i := 0) hjoin with ⟨-, s2, hs2, -, hne⟩
    rw [Nat.sub_zero] at hs2
    simp only at hpe
    rw [hpe] at hs2
    have hgd : ss.getD i [] = s2 := by
      rw [List.getD_eq_getElem?_getD, hs2]
      rfl
    rw [hgd] at hw
    exact hne hw
  constructor
  · rw [hspec.1]
    unfold specBatchResults
    rw [List.getD_eq_getElem?_getD,
      foldl_applyGroup_getElem?_not_mem _ _ _ _ _ _ hnotin]
    by_cases hj : i < ss.length
    · rw [List.getElem?_replicate_of_lt hj]
      rfl
    · rw [List.getElem?_eq_none (by simpa using hj)]
      rfl
  · rw [hspec.2]
    intro p hp hip
    rcases List.mem_map.mp hp with ⟨g, hg, rfl⟩
    unfold groupTrace at hip
    rcases List.mem_map.mp hip with ⟨q, hq, hqe⟩
    exact hnotin g hg q hq hqe

/-- C6: an input sentence that is the empty string translates to the empty
string and appears in no dispatched batch (so it causes no engine call). -/
theorem c6_empty_input_untouched (env : TransEnv) (ss : List Str)
    (toL eng : Str) (i : Nat) (_hi : i < ss.length)
    (he : ss.getD i [] = []) :
    (batchTranslateSentences env ss toL eng).getD i [] = [] ∧
    ∀ p ∈ (batchTranslateT env ss toL eng).calls, i ∉ p.1 := by
  refine trimEmpty_untouched env ss toL eng i ?_
  rw [he]
  rfl

/-- Witness for C6 at a concrete two-sentence input whose first sentence is
empty. -/
theorem c6_witness :
    (batchTranslateSentences idleTrans [[], ("Hi").toList] [] []).getD 0 [] =
        [] ∧
    ∀ p ∈ (batchTranslateT idleTrans [[], ("Hi").toList] [] []).calls,
      0 ∉ p.1 := by
  exact c6_empty_input_untouched idleTrans [[], ("Hi").toList] [] [] 0
    (by decide) rfl

/-! ### Trim idempotence -/

theorem dropWhile_idem (p : Char → Bool) (l : Str) :
    (l.dropWhile p).dropWhile p = l.dropWhile p := by
  induction l with
  | nil => rfl
  | cons c cs ih =>
    by_cases h : p c
    · simp [List.dropWhile_cons, h, ih]
    · simp [List.dropWhile_cons, h]

theorem dropWhile_head_not (p : Char → Bool) (l : Str)
    (h : l.dropWhile p ≠ []) :
    p ((l.dropWhile p).head h) = false := by
  have h0 : 0 < (l.dropWhile p).length := List.length_pos.mpr h
  have h2 := List.dropWhile_get_zero_not p l h0
  rw [List.get_mk_zero] at h2
  simpa using h2

theorem dropWhile_getLast_eq (p : Char → Bool) (l : Str)
    (h : l.dropWhile p ≠ []) (hl : l ≠ []) :
    (l.dropWhile p).getLast h = l.getLast hl := by
  rcases List.dropWhile_suffix p (l := l) with ⟨t, ht⟩
  calc (l.dropWhile p).getLast h
      = (t ++ l.dropWhile p).getLast (by simp [h]) :=
        (List.getLast_append_of_ne_nil h).symm
    _ = l.getLast hl := by congr 1

theorem jsTrim_getLast_not_ws (s : Str) (h : jsTrim s ≠ []) :
    isWs ((jsTrim s).getLast h) = false := by
  have hBne : (s.dropWhile isWs).reverse.dropWhile isWs ≠ [] := by
    intro hb
    apply h
    show ((s.dropWhile isWs).reverse.dropWhile isWs).reverse = []
    rw [hb]
    rfl
  have hg := List.getLast_reverse (l := (s.dropWhile isWs).reverse.dropWhile isWs)
  rw [show (jsTrim s).getLast h =
    ((s.dropWhile isWs).reverse.dropWhile isWs).reverse.getLast (by simpa using hBne) from rfl]
  rw [hg]
  exact dropWhile_head_not isWs (s.dropWhile isWs).reverse hBne

theorem jsTrim_head_not_ws (s : Str) (h : jsTrim s ≠ []) :
    isWs ((jsTrim s).head h) = false := by
  have hBne : (s.dropWhile isWs).reverse.dropWhile isWs ≠ [] := by
    intro hb
    apply h
    show ((s.dropWhile isWs).reverse.dropWhile isWs).reverse = []
    rw [hb]
    rfl
  have hARne : (s.dropWhile isWs).reverse ≠ [] := by
    intro ha
    rw [ha] at hBne
    exact hBne rfl
  have hAne : s.dropWhile isWs ≠ [] := by simpa using hARne
  rw [show (jsTrim s).head h =
    ((s.dropWhile isWs).reverse.dropWhile isWs).reverse.head (by simpa using hBne) from rfl]
  rw [List.head_reverse]
  rw [dropWhile_getLast_eq isWs (s.dropWhile isWs).reverse hBne hARne]
  rw [List.getLast_reverse]
  exact dropWhile_head_not isWs s hAne

theorem jsTrim_eq_self (s : Str)
    (h1 : ∀ hh : s ≠ [], isWs (s.head hh) = false)
    (h2 : ∀ hh : s ≠ [], isWs (s.getLast hh) = false) :
    jsTrim s = s := by
  by_cases hs : s = []
  · subst hs
    rfl
  · have hd : s.dropWhile isWs = s := by
      rw [List.dropWhile_eq_self_iff]
      intro hh
      rw [List.get_mk_zero]
      simp [h1 hs]
    show ((s.dropWhile isWs).reverse.dropWhile isWs).reverse = s
    rw [hd]
    have hr : s.reverse.dropWhile isWs = s.reverse := by
      rw [List.dropWhile_eq_self_iff]
      intro hh
      rw [List.get_mk_zero, List.head_reverse]
      simp [h2 hs]
    rw [hr, List.reverse_reverse]

theorem jsTrim_idem (s : Str) : jsTrim (jsTrim s) = jsTrim s := by
  by_cases h : jsTrim s = []
  · rw [h]
    rfl
  · exact jsTrim_eq_self _ (fun hh => jsTrim_head_not_ws s h)
      (fun hh => jsTrim_getLast_not_ws s h)

/-- C10: a whitespace-only input sentence behaves exactly like an empty
one (empty output, no dispatch), and every string dispatched to a backend
is trimmed (no leading or trailing whitespace). -/
theorem c10_trimmed_before_dispatch (env : TransEnv) (ss : List Str)
    (toL eng : Str) (i : Nat) (_hi : i < ss.length)
    (hw : jsTrim (ss.getD i []) = []) :
    (batchTranslateSentences env ss toL eng).getD i [] = [] ∧
    (∀ p ∈ (batchTranslateT env ss toL eng).calls, i ∉ p.1) ∧
    (∀ p ∈ (batchTranslateT env ss toL eng).calls, ∀ t ∈ p.2, jsTrim t = t) := by
  have h0 := trimEmpty_untouched env ss toL eng i hw
  refine ⟨h0.1, h0.2, ?_⟩
  have hspec := batchTranslate_eq_spec env ss toL eng
  rw [hspec.2]
  intro p hp t htp
  rcases List.mem_map.mp hp with ⟨g, hg, rfl⟩
  unfold groupTrace at htp
  rcases List.mem_map.mp htp with ⟨q, hq, hqe⟩
  have hjoin : q ∈ (specGroups ss).flatten := List.mem_flatten_of_mem hg hq
  rw [specGroups, specPackAux_flatten, List.nil_append] at hjoin
  rcases q with ⟨j, t2⟩
  rcases mem_trimmedIndexedFrom (i := 0) hjoin with ⟨-, s2, -, ht2, -⟩
  simp only at hqe
  subst hqe
  rw [ht2]
  exact jsTrim_idem s2

/-- Witness for C10 at a concrete input whose first sentence is
whitespace-only. -/
theorem c10_witness :
    (batchTranslateSentences idleTrans [(" ").toList, ("Hi").toList] [] []).getD
        0 [] = [] ∧
    (∀ p ∈ (batchTranslateT idleTrans [(" ").toList, ("Hi").toList] [] []).calls,
      0 ∉ p.1) ∧
    (∀ p ∈ (batchTranslateT idleTrans [(" ").toList, ("Hi").toList] [] []).calls,
      ∀ t ∈ p.2, jsTrim t = t) := by
  exact c10_trimmed_before_dispatch idleTrans [(" ").toList, ("Hi").toList]
    [] [] 0 (by decide) (by decide)

/-! ### Block-splitter structure lemmas (claim C2) -/

theorem consHead_ne_nil (c : Char) (ls : List Str) : consHead c ls ≠ [] := by
  cases ls <;> simp [consHead]

theorem consHead_append (c : Char) (a b : List Str) (ha : a ≠ []) :
    consHead c (a ++ b) = consHead c a ++ b := by
  cases a with
  | nil => exact absurd rfl ha
  | cons x xs => rfl

theorem splitDouble_ne_nil (s : Str) : splitDouble s ≠ [] := by
  rw [splitDouble.eq_def]
  split
  · simp
  · simp
  · simp
  · simp
  · simp
  · exact consHead_ne_nil _ _

theorem sd_nn (r : Str) : splitDouble ('\n' :: '\n' :: r) = [] :: splitDouble r := rfl

theorem sd_cons (c : Char) (r : Str) (hc1 : c ≠ '\n') (hc2 : c ≠ '\r') :
    splitDouble (c :: r) = consHead c (splitDouble r) := by
  rw [splitDouble.eq_def]
  split
  · simp_all
  · simp_all
  · simp_all
  · simp_all
  · simp_all
  · rename_i h
    injection h with h1 h2
    subst h1
    subst h2
    rfl

theorem sd_nl_cons (d : Char) (r : Str) (hd1 : d ≠ '\n') (hd2 : d ≠ '\r') :
    splitDouble ('\n' :: d :: r) = consHead '\n' (splitDouble (d :: r)) := by
  rw [splitDouble.eq_def]
  split
  · simp_all
  · simp_all
  · simp_all
  · simp_all
  · simp_all
  · rename_i h
    injection h with h1 h2
    subst h1
    subst h2
    rfl

theorem getLast_tail_ne {u : Str} {a x : Char}
    (hlast : ∀ hh : (a :: u) ≠ [], (a :: u).getLast hh ≠ x) :
    ∀ hh : u ≠ [], u.getLast hh ≠ x := by
  intro hh
  have h2 := hlast (List.cons_ne_nil a u)
  rwa [List.getLast_cons hh] at h2

theorem splitDouble_append_noCR :
    ∀ (n : Nat) (u : Str), u.length ≤ n → '\r' ∉ u →
      (∀ hh : u ≠ [], u.getLast hh ≠ '\n') →
      ∀ v : Str,
        splitDouble (u ++ '\n' :: '\n' :: v) = splitDouble u ++ splitDouble v := by
  intro n
  induction n with
  | zero =>
    intro u hu hcr hlast v
    have hn : u = [] := List.eq_nil_of_length_eq_zero (Nat.le_zero.mp hu)
    subst hn
    simp [sd_nn, splitDouble]
  | succ n ihn =>
    intro u hu hcr hlast v
    cases u with
    | nil => simp [sd_nn, splitDouble]
    | cons c u2 =>
      have hc2 : c ≠ '\r' := by
        intro h
        subst h
        exact hcr (List.mem_cons_self _ _)
      by_cases hc1 : c = '\n'
      · subst hc1
        cases u2 with
        | nil =>
          exact absurd rfl (hlast (List.cons_ne_nil _ _))
        | cons d u3 =>
          have hd2 : d ≠ '\r' := by
            intro h
            subst h
            exact hcr (List.mem_cons_of_mem _ (List.mem_cons_self _ _))
          have hcr3 : '\r' ∉ u3 := fun hm =>
            hcr (List.mem_cons_of_mem _ (List.mem_cons_of_mem _ hm))
          by_cases hd1 : d = '\n'
          · subst hd1
            cases u3 with
            | nil => exact absurd rfl (getLast_tail_ne hlast (List.cons_ne_nil _ _))
            | cons e u4 =>
              have hlast3 : ∀ hh : (e :: u4) ≠ [], (e :: u4).getLast hh ≠ '\n' :=
                getLast_tail_ne (getLast_tail_ne hlast)
              have hih := ihn (e :: u4) (by simp at hu ⊢; omega) hcr3 hlast3 v
              show splitDouble ('\n' :: '\n' :: ((e :: u4) ++ '\n' :: '\n' :: v)) =
                splitDouble ('\n' :: '\n' :: (e :: u4)) ++ splitDouble v
              rw [sd_nn, sd_nn, hih]
              rfl
          · have hlast2 : ∀ hh : (d :: u3) ≠ [], (d :: u3).getLast hh ≠ '\n' :=
              getLast_tail_ne hlast
            have hcr2 : '\r' ∉ (d :: u3) := fun hm =>
              hcr (List.mem_cons_of_mem _ hm)
            have hih := ihn (d :: u3) (by simp at hu ⊢; omega) hcr2 hlast2 v
            show splitDouble ('\n' :: ((d :: u3) ++ '\n' :: '\n' :: v)) =
              splitDouble ('\n' :: d :: u3) ++ splitDouble v
            rw [show ((d :: u3) ++ '\n' :: '\n' :: v) = d :: (u3 ++ '\n' :: '\n' :: v) from rfl]
            rw [sd_nl_cons d _ hd1 hd2]
            rw [show (d :: (u3 ++ '\n' :: '\n' :: v)) = ((d :: u3) ++ '\n' :: '\n' :: v) from rfl]
            rw [hih]
            rw [consHead_append _ _ _ (splitDouble_ne_nil _)]
            rw [sd_nl_cons d u3 hd1 hd2]
      · have hlast2 : ∀ hh : u2 ≠ [], u2.getLast hh ≠ '\n' := getLast_tail_ne hlast
        have hcr2 : '\r' ∉ u2 := fun hm => hcr (List.mem_cons_of_mem _ hm)
        have hih := ihn u2 (by simp at hu ⊢; omega) hcr2 hlast2 v
        show splitDouble (c :: (u2 ++ '\n' :: '\n' :: v)) =
          splitDouble (c :: u2) ++ splitDouble v
        rw [sd_cons c _ hc1 hc2, hih,
          consHead_append _ _ _ (splitDouble_ne_nil _), sd_cons c u2 hc1 hc2]

/-- C2 counterexample: on a source whose blocks are out of order the parse
result is not sorted by the derived start milliseconds. -/
theorem c2_counterexample :
    isSortedByStart (parseSRT c2src) = false ∧
    (parseSRT c2src).map Cue.startMs = [10000, 1000] := by
  exact ⟨rfl, rfl⟩

/-- C2 amended: parseSRT does not re-sort; it emits cues in source block
order.  Splitting a source at a blank-line boundary splits the parse (for
a left part free of carriage returns and not ending in a line feed), so
the output is sorted by start time exactly when the source blocks already
are. -/
theorem c2_parseSRT_preserves_source_order (u v : Str) (hcr : '\r' ∉ u)
    (hlast : ∀ hh : u ≠ [], u.getLast hh ≠ '\n') :
    parseSRT (u ++ '\n' :: '\n' :: v) = parseSRT u ++ parseSRT v := by
  unfold parseSRT
  rw [splitDouble_append_noCR u.length u le_rfl hcr hlast v,
    List.filterMap_append]

/-- Witness for C2 amended: the unordered source is the concatenation of
its two blocks, and its parse is the concatenation of their parses. -/
theorem c2_witness :
    parseSRT (c2u ++ '\n' :: '\n' :: c2v) = parseSRT c2u ++ parseSRT c2v := by
  exact c2_parseSRT_preserves_source_order c2u c2v (by decide) (by decide)

/-! ### Line-splitter lemmas (claim C3) -/

theorem splitNL_ne_nil (s : Str) : splitNL s ≠ [] := by
  rw [splitNL.eq_def]
  split
  · simp
  · simp
  · simp
  · exact consHead_ne_nil _ _

theorem snl_nl (r : Str) : splitNL ('\n' :: r) = [] :: splitNL r := rfl

theorem snl_cons (c : Char) (r : Str) (hc1 : c ≠ '\n') (hc2 : c ≠ '\r') :
    splitNL (c :: r) = consHead c (splitNL r) := by
  rw [splitNL.eq_def]
  split
  · simp_all
  · simp_all
  · simp_all
  · rename_i h
    injection h with h1 h2
    subst h1
    subst h2
    rfl

theorem splitNL_append (u : Str) (hcr : '\r' ∉ u) (w : Str) :
    splitNL (u ++ '\n' :: w) = splitNL u ++ splitNL w := by
  induction u with
  | nil => rfl
  | cons c u2 ih =>
    have hcr2 : '\r' ∉ u2 := fun hm => hcr (List.mem_cons_of_mem _ hm)
    have hc2 : c ≠ '\r' := by
      intro h
      subst h
      exact hcr (List.mem_cons_self _ _)
    by_cases hc1 : c = '\n'
    · subst hc1
      show splitNL ('\n' :: (u2 ++ '\n' :: w)) = splitNL ('\n' :: u2) ++ splitNL w
      rw [snl_nl, snl_nl, ih hcr2]
      rfl
    · show splitNL (c :: (u2 ++ '\n' :: w)) = splitNL (c :: u2) ++ splitNL w
      rw [snl_cons c _ hc1 hc2, snl_cons c u2 hc1 hc2, ih hcr2,
        consHead_append _ _ _ (splitNL_ne_nil u2)]

theorem mem_splitNL_noCR :
    ∀ (n : Nat) (s : Str), s.length ≤ n → '\r' ∉ s →
      ∀ p ∈ splitNL s, '\n' ∉ p ∧ ∀ c ∈ p, c ∈ s := by
  intro n
  induction n with
  | zero =>
    intro s hs hcr p hp
    have h0 : s = [] := List.eq_nil_of_length_eq_zero (Nat.le_zero.mp hs)
    subst h0
    have : p = [] := by simpa [splitNL] using hp
    subst this
    simp
  | succ n ihn =>
    intro s hs hcr p hp
    cases s with
    | nil =>
      have : p = [] := by simpa [splitNL] using hp
      subst this
      simp
    | cons c rest =>
      have hcr2 : '\r' ∉ rest := fun hm => hcr (List.mem_cons_of_mem _ hm)
      have hc2 : c ≠ '\r' := by
        intro h
        subst h
        exact hcr (List.mem_cons_self _ _)
      by_cases hc1 : c = '\n'
      · subst hc1
        rw [snl_nl] at hp
        rcases List.mem_cons.mp hp with rfl | hp2
        · simp
        · have := ihn rest (by simp at hs; omega) hcr2 p hp2
          exact ⟨this.1, fun d hd => List.mem_cons_of_mem _ (this.2 d hd)⟩
      · rw [snl_cons c rest hc1 hc2] at hp
        cases hps : splitNL rest with
        | nil => exact absurd hps (splitNL_ne_nil rest)
        | cons q qs =>
          rw [hps] at hp
          simp only [consHead] at hp
          rcases List.mem_cons.mp hp with rfl | hp2
          · have hq := ihn rest (by simp at hs; omega) hcr2 q
              (by rw [hps]; exact List.mem_cons_self _ _)
            constructor
            · intro hmem
              rcases List.mem_cons.mp hmem with h | h
              · exact hc1 h.symm
              · exact hq.1 h
            · intro d hd
              rcases List.mem_cons.mp hd with rfl | h
              · exact List.mem_cons_self _ _
              · exact List.mem_cons_of_mem _ (hq.2 d h)
          · have := ihn rest (by simp at hs; omega) hcr2 p
              (by rw [hps]; exact List.mem_cons_of_mem _ hp2)
            exact ⟨this.1, fun d hd => List.mem_cons_of_mem _ (this.2 d hd)⟩

theorem splitNL_singleton (s : Str) (h1 : '\n' ∉ s) (h2 : '\r' ∉ s) :
    splitNL s = [s] := by
  induction s with
  | nil => rfl
  | cons c rest ih =>
    have hc1 : c ≠ '\n' := by
      intro h
      subst h
      exact h1 (List.mem_cons_self _ _)
    have hc2 : c ≠ '\r' := by
      intro h
      subst h
      exact h2 (List.mem_cons_self _ _)
    rw [snl_cons c rest hc1 hc2,
      ih (fun hm => h1 (List.mem_cons_of_mem _ hm))
        (fun hm => h2 (List.mem_cons_of_mem _ hm))]
    rfl

theorem joinWith_consHead (sep c : Char) (ps : List Str) (h : ps ≠ []) :
    joinWith sep (consHead c ps) = c :: joinWith sep ps := by
  cases ps with
  | nil => exact absurd rfl h
  | cons q qs =>
    cases qs with
    | nil => rfl
    | cons q2 qs2 => rfl

theorem joinWith_splitNL (s : Str) (hcr : '\r' ∉ s) :
    joinWith '\n' (splitNL s) = s := by
  induction s with
  | nil => rfl
  | cons c rest ih =>
    have hcr2 : '\r' ∉ rest := fun hm => hcr (List.mem_cons_of_mem _ hm)
    have hc2 : c ≠ '\r' := by
      intro h
      subst h
      exact hcr (List.mem_cons_self _ _)
    by_cases hc1 : c = '\n'
    · subst hc1
      rw [snl_nl]
      cases hps : splitNL rest with
      | nil => exact absurd hps (splitNL_ne_nil rest)
      | cons q qs =>
        show joinWith '\n' ([] :: q :: qs) = '\n' :: rest
        rw [show joinWith '\n' ([] :: q :: qs) =
          [] ++ '\n' :: joinWith '\n' (q :: qs) from rfl]
        rw [show ([] : Str) ++ '\n' :: joinWith '\n' (q :: qs) =
          '\n' :: joinWith '\n' (q :: qs) from rfl]
        rw [← hps, ih hcr2]
    · rw [snl_cons c rest hc1 hc2,
        joinWith_consHead _ _ _ (splitNL_ne_nil rest), ih hcr2]

/-! ### Double-line-feed lemmas (claim C3) -/

theorem hasNN_cons2 (c1 c2 : Char) (r : Str) :
    hasNN (c1 :: c2 :: r) = ((c1 = '\n' && c2 = '\n') || hasNN (c2 :: r)) := rfl

theorem hasNN_tail (c : Char) (s : Str) (h : hasNN (c :: s) = false) :
    hasNN s = false := by
  cases s with
  | nil => rfl
  | cons d r =>
    rw [hasNN_cons2] at h
    exact (Bool.or_eq_false_iff.mp h).2

theorem hasNN_of_no_nl (s : Str) (h : '\n' ∉ s) : hasNN s = false := by
  induction s with
  | nil => rfl
  | cons c rest ih =>
    cases rest with
    | nil => rfl
    | cons d r =>
      rw [hasNN_cons2]
      have hc : c ≠ '\n' := by
        intro hh
        subst hh
        exact h (List.mem_cons_self _ _)
      have h2 := ih (fun hm => h (List.mem_cons_of_mem _ hm))
      simp [hc]
      exact h2

theorem hasNN_append_no_nl_left (u w : Str) (hu : '\n' ∉ u)
    (hw : hasNN w = false) : hasNN (u ++ w) = false := by
  induction u with
  | nil => simpa
  | cons c u2 ih =>
    have hc : c ≠ '\n' := by
      intro hh
      subst hh
      exact hu (List.mem_cons_self _ _)
    have h2 := ih (fun hm => hu (List.mem_cons_of_mem _ hm))
    show hasNN (c :: (u2 ++ w)) = false
    cases h3 : u2 ++ w with
    | nil => rfl
    | cons d r =>
      rw [hasNN_cons2]
      simp [hc]
      rw [← h3]
      exact h2

theorem hasNN_cons_nl (w : Str) (hw : hasNN w = false)
    (hh : ∀ d, w.head? = some d → d ≠ '\n') : hasNN ('\n' :: w) = false := by
  cases w with
  | nil => rfl
  | cons d r =>
    rw [hasNN_cons2]
    simp [hh d rfl]
    exact hw

theorem hasNN_snoc_nl (t : Str) (ht : hasNN t = false)
    (hl : ∀ c, t.getLast? = some c → c ≠ '\n') :
    hasNN (t ++ ['\n']) = false := by
  induction t with
  | nil => rfl
  | cons c t2 ih =>
    cases t2 with
    | nil =>
      rw [show (([c] : Str) ++ ['\n']) = [c, '\n'] from rfl, hasNN_cons2]
      simp [hl c rfl]
      rfl
    | cons d r =>
      rw [show ((c :: d :: r) ++ ['\n']) = c :: ((d :: r) ++ ['\n']) from rfl]
      rw [show ((d :: r) ++ ['\n']) = d :: (r ++ ['\n']) from rfl]
      rw [hasNN_cons2]
      rw [hasNN_cons2] at ht
      rcases Bool.or_eq_false_iff.mp ht with ⟨hw, ht2⟩
      have hl2 : ∀ e, (d :: r).getLast? = some e → e ≠ '\n' := by
        intro e he
        exact hl e (by rw [List.getLast?_cons_cons]; exact he)
      have := ih ht2 hl2
      rw [show ((d :: r) ++ ['\n']) = d :: (r ++ ['\n']) from rfl] at this
      simp [hw]
      exact this

theorem hasNN_joinNL (L : List Str) (h : ∀ l ∈ L, l ≠ [] ∧ '\n' ∉ l) :
    hasNN (joinWith '\n' L) = false ∧
    (∀ d, (joinWith '\n' L).head? = some d → d ≠ '\n') := by
  induction L with
  | nil => exact ⟨rfl, by intro d hd; cases hd⟩
  | cons l ls ih =>
    have hl := h l (List.mem_cons_self _ _)
    have ih2 := ih (fun l2 hl2 => h l2 (List.mem_cons_of_mem _ hl2))
    cases ls with
    | nil =>
      refine ⟨hasNN_of_no_nl l hl.2, ?_⟩
      intro d hd
      intro he
      subst he
      exact hl.2 (List.mem_of_mem_head? hd)
    | cons l2 ls2 =>
      have hjoin : joinWith '\n' (l :: l2 :: ls2) =
          l ++ '\n' :: joinWith '\n' (l2 :: ls2) := rfl
      constructor
      · rw [hjoin]
        refine hasNN_append_no_nl_left _ _ hl.2 ?_
        exact hasNN_cons_nl _ ih2.1 ih2.2
      · intro d hd
        rw [hjoin] at hd
        cases hle : l with
        | nil => exact absurd hle hl.1
        | cons x xs =>
          rw [hle] at hd
          simp at hd
          intro he
          subst he
          subst hd
          exact hl.2 (by rw [hle]; exact List.mem_cons_self _ _)

theorem hasNN_append_right (t b : Str) (h : hasNN t = true) :
    hasNN (t ++ b) = true := by
  induction t with
  | nil => cases h
  | cons c t2 ih =>
    cases t2 with
    | nil => cases h
    | cons d r =>
      rw [hasNN_cons2] at h
      rw [show ((c :: d :: r) ++ b) = c :: d :: (r ++ b) from rfl, hasNN_cons2]
      rcases Bool.or_eq_true_iff.mp h with hw | ht2
      · simp [hw]
      · have := ih ht2
        rw [show ((d :: r) ++ b) = d :: (r ++ b) from rfl] at this
        simp [this]

theorem hasNN_append_left (a t : Str) (h : hasNN t = true) :
    hasNN (a ++ t) = true := by
  induction a with
  | nil => simpa
  | cons c a2 ih =>
    show hasNN (c :: (a2 ++ t)) = true
    cases h3 : a2 ++ t with
    | nil =>
      rcases List.append_eq_nil.mp h3 with ⟨-, ht⟩
      subst ht
      cases h
    | cons d r =>
      rw [hasNN_cons2]
      rw [← h3, ih]
      simp

/-! ### Trim decomposition lemmas (claim C3) -/

theorem jsTrim_decomp (s : Str) :
    s = s.takeWhile isWs ++ jsTrim s ++
      ((s.dropWhile isWs).reverse.takeWhile isWs).reverse := by
  have h2 := List.takeWhile_append_dropWhile (p := isWs)
    (l := (s.dropWhile isWs).reverse)
  have h4 := congrArg List.reverse h2
  rw [List.reverse_append, List.reverse_reverse] at h4
  have h5 := List.takeWhile_append_dropWhile (p := isWs) (l := s)
  conv_lhs => rw [← h5]
  rw [List.append_assoc]
  congr 1
  exact h4.symm

theorem mem_jsTrim (s : Str) (c : Char) (h : c ∈ jsTrim s) : c ∈ s := by
  rw [jsTrim_decomp s]
  exact List.mem_append.mpr (Or.inl (List.mem_append.mpr (Or.inr h)))

theorem hasNN_jsTrim (s : Str) (h : hasNN s = false) :
    hasNN (jsTrim s) = false := by
  cases hb : hasNN (jsTrim s) with
  | false => rfl
  | true =>
    have h2 : hasNN ((s.takeWhile isWs ++ jsTrim s) ++
        ((s.dropWhile isWs).reverse.takeWhile isWs).reverse) = true :=
      hasNN_append_right _ _ (hasNN_append_left _ _ hb)
    have h6 := jsTrim_decomp s
    rw [← h6] at h2
    rw [h2] at h
    cases h

/-! ### Part-nonemptiness and block-splitter extras (claim C3) -/

theorem splitNL_parts_ne_nil :
    ∀ (n : Nat) (t : Str), t.length ≤ n → t ≠ [] → '\r' ∉ t →
      hasNN t = false →
      (∀ d, t.head? = some d → d ≠ '\n') →
      (∀ d, t.getLast? = some d → d ≠ '\n') →
      ∀ p ∈ splitNL t, p ≠ [] := by
  intro n
  induction n with
  | zero =>
    intro t hlen hne
    exact absurd (List.eq_nil_of_length_eq_zero (Nat.le_zero.mp hlen)) hne
  | succ n ihn =>
    intro t hlen hne hcr hnn hhead hlast p hp
    cases t with
    | nil => exact absurd rfl hne
    | cons c rest =>
      have hc1 : c ≠ '\n' := hhead c rfl
      have hc2 : c ≠ '\r' := by
        intro h
        subst h
        exact hcr (List.mem_cons_self _ _)
      rw [snl_cons c rest hc1 hc2] at hp
      cases hps : splitNL rest with
      | nil => exact absurd hps (splitNL_ne_nil rest)
      | cons q qs =>
        rw [hps] at hp
        simp only [consHead] at hp
        rcases List.mem_cons.mp hp with rfl | hp2
        · simp
        · cases rest with
          | nil =>
            rw [show splitNL ([] : Str) = [[]] from rfl] at hps
            injection hps with hq hqs
            rw [← hqs] at hp2
            cases hp2
          | cons d r2 =>
            have hd2 : d ≠ '\r' := fun h =>
              hcr (List.mem_cons_of_mem _ (h ▸ List.mem_cons_self _ _))
            have hcr2 : '\r' ∉ d :: r2 := fun hm =>
              hcr (List.mem_cons_of_mem _ hm)
            by_cases hd1 : d = '\n'
            · subst hd1
              rw [snl_nl] at hps
              injection hps with hq hqs
              cases r2 with
              | nil => exact absurd rfl (hlast '\n' rfl)
              | cons e r3 =>
                have hnn2 : hasNN ('\n' :: e :: r3) = false :=
                  hasNN_tail _ _ hnn
                rw [hasNN_cons2] at hnn2
                rcases Bool.or_eq_false_iff.mp hnn2 with ⟨hw, hnn3⟩
                have he : e ≠ '\n' := by
                  intro hh
                  subst hh
                  simp at hw
                refine ihn (e :: r3) (by simp at hlen ⊢; omega)
                  (List.cons_ne_nil _ _)
                  (fun hm => hcr2 (List.mem_cons_of_mem _ hm))
                  hnn3 (fun d2 hd2e => by
                    injection hd2e with hh
                    rw [← hh]
                    exact he)
                  (fun d2 hd2e => hlast d2 (by
                    rw [List.getLast?_cons_cons, List.getLast?_cons_cons]
                    exact hd2e))
                  p (by rw [← hqs] at hp2; exact hp2)
            · refine ihn (d :: r2) (by simp at hlen ⊢; omega)
                (List.cons_ne_nil _ _) hcr2 (hasNN_tail _ _ hnn)
                (fun d2 hd2e => by
                  injection hd2e with hh
                  rw [← hh]
                  exact hd1)
                (fun d2 hd2e => hlast d2 (by
                  rw [List.getLast?_cons_cons]
                  exact hd2e))
                p (by rw [hps]; exact List.mem_cons_of_mem _ hp2)

theorem sd_nl_nil : splitDouble ['\n'] = [['\n']] := rfl

theorem mem_splitDouble_subset :
    ∀ (n : Nat) (s : Str), s.length ≤ n → '\r' ∉ s →
      ∀ p ∈ splitDouble s, ∀ c ∈ p, c ∈ s := by
  intro n
  induction n with
  | zero =>
    intro s hlen hcr p hp c hc
    have h0 : s = [] := List.eq_nil_of_length_eq_zero (Nat.le_zero.mp hlen)
    subst h0
    have : p = [] := by simpa [splitDouble] using hp
    subst this
    cases hc
  | succ n ihn =>
    intro s hlen hcr p hp c hc
    cases s with
    | nil =>
      have : p = [] := by simpa [splitDouble] using hp
      subst this
      cases hc
    | cons a rest =>
      have hcr2 : '\r' ∉ rest := fun hm => hcr (List.mem_cons_of_mem _ hm)
      have ha2 : a ≠ '\r' := by
        intro h
        subst h
        exact hcr (List.mem_cons_self _ _)
      by_cases ha1 : a = '\n'
      · subst ha1
        cases rest with
        | nil =>
          rw [sd_nl_nil] at hp
          rcases List.mem_singleton.mp hp with rfl
          exact hc
        | cons d r2 =>
          have hd2 : d ≠ '\r' := fun h =>
            hcr2 (h ▸ List.mem_cons_self _ _)
          by_cases hd1 : d = '\n'
          · subst hd1
            rw [sd_nn] at hp
            rcases List.mem_cons.mp hp with rfl | hp2
            · cases hc
            · have := ihn r2 (by simp at hlen ⊢; omega)
                (fun hm => hcr2 (List.mem_cons_of_mem _ hm)) p hp2 c hc
              exact List.mem_cons_of_mem _ (List.mem_cons_of_mem _ this)
          · rw [sd_nl_cons d r2 hd1 hd2] at hp
            cases hps : splitDouble (d :: r2) with
            | nil => exact absurd hps (splitDouble_ne_nil _)
            | cons q qs =>
              rw [hps] at hp
              simp only [consHead] at hp
              rcases List.mem_cons.mp hp with rfl | hp2
              · rcases List.mem_cons.mp hc with rfl | hc2
                · exact List.mem_cons_self _ _
                · have := ihn (d :: r2) (by simp at hlen ⊢; omega) hcr2 q
                    (by rw [hps]; exact List.mem_cons_self _ _) c hc2
                  exact List.mem_cons_of_mem _ this
              · have := ihn (d :: r2) (by simp at hlen ⊢; omega) hcr2 p
                  (by rw [hps]; exact List.mem_cons_of_mem _ hp2) c hc
                exact List.mem_cons_of_mem _ this
      · rw [sd_cons a rest ha1 ha2] at hp
        cases hps : splitDouble rest with
        | nil => exact absurd hps (splitDouble_ne_nil _)
        | cons q qs =>
          rw [hps] at hp
          simp only [consHead] at hp
          rcases List.mem_cons.mp hp with rfl | hp2
          · rcases List.mem_cons.mp hc with rfl | hc2
            · exact List.mem_cons_self _ _
            · have := ihn rest (by simp at hlen ⊢; omega) hcr2 q
                (by rw [hps]; exact List.mem_cons_self _ _) c hc2
              exact List.mem_cons_of_mem _ this
          · have := ihn rest (by simp at hlen ⊢; omega) hcr2 p
              (by rw [hps]; exact List.mem_cons_of_mem _ hp2) c hc
            exact List.mem_cons_of_mem _ this

theorem splitDouble_single :
    ∀ (n : Nat) (s : Str), s.length ≤ n → '\r' ∉ s → hasNN s = false →
      splitDouble s = [s] := by
  intro n
  induction n with
  | zero =>
    intro s hlen hcr hnn
    have h0 : s = [] := List.eq_nil_of_length_eq_zero (Nat.le_zero.mp hlen)
    subst h0
    rfl
  | succ n ihn =>
    intro s hlen hcr hnn
    cases s with
    | nil => rfl
    | cons a rest =>
      have hcr2 : '\r' ∉ rest := fun hm => hcr (List.mem_cons_of_mem _ hm)
      have ha2 : a ≠ '\r' := by
        intro h
        subst h
        exact hcr (List.mem_cons_self _ _)
      by_cases ha1 : a = '\n'
      · subst ha1
        cases rest with
        | nil => rfl
        | cons d r2 =>
          have hd2 : d ≠ '\r' := fun h =>
            hcr2 (h ▸ List.mem_cons_self _ _)
          have hd1 : d ≠ '\n' := by
            intro h
            subst h
            rw [hasNN_cons2] at hnn
            simp at hnn
          rw [sd_nl_cons d r2 hd1 hd2,
            ihn (d :: r2) (by simp at hlen ⊢; omega) hcr2 (hasNN_tail _ _ hnn)]
          rfl
      · rw [sd_cons a rest ha1 ha2,
          ihn rest (by simp at hlen ⊢; omega) hcr2 (hasNN_tail _ _ hnn)]
        rfl

/-! ### Arrow-separator lemmas (claim C3) -/

theorem ha_arrow (r : Str) : hasArrow ('-' :: '-' :: '>' :: r) = true := rfl

theorem ha_cons (c : Char) (r : Str)
    (h : ¬(c = '-' ∧ ∃ r2, r = '-' :: '>' :: r2)) :
    hasArrow (c :: r) = hasArrow r := by
  rw [hasArrow.eq_def]
  split
  · rename_i heq
    injection heq with h1 h2
    exact absurd ⟨h1, _, h2⟩ h
  · rename_i heq
    injection heq with h1 h2
    subst h1
    subst h2
    rfl
  · rename_i heq
    simp at heq

theorem ha_cons_of_false (c : Char) (r : Str) (h : hasArrow (c :: r) = false) :
    hasArrow r = false := by
  by_cases hc : c = '-' ∧ ∃ r2, r = '-' :: '>' :: r2
  · rcases hc with ⟨rfl, r2, rfl⟩
    rw [ha_arrow] at h
    cases h
  · rwa [ha_cons c r hc] at h

theorem window_false_of_hasArrow_false (c : Char) (r : Str)
    (h : hasArrow (c :: r) = false) : ¬(c = '-' ∧ ∃ r2, r = '-' :: '>' :: r2) := by
  rintro ⟨rfl, r2, rfl⟩
  rw [ha_arrow] at h
  cases h

theorem splitArrow_ne_nil (s : Str) : splitArrow s ≠ [] := by
  rw [splitArrow.eq_def]
  split
  · simp
  · simp
  · exact consHead_ne_nil _ _

theorem sa_cut (r : Str) : splitArrow ('-' :: '-' :: '>' :: r) = [] :: splitArrow r := rfl

theorem sa_cons (c : Char) (r : Str)
    (h : ¬(c = '-' ∧ ∃ r2, r = '-' :: '>' :: r2)) :
    splitArrow (c :: r) = consHead c (splitArrow r) := by
  rw [splitArrow.eq_def]
  split
  · rename_i heq
    simp at heq
  · rename_i heq
    injection heq with h1 h2
    exact absurd ⟨h1, _, h2⟩ h
  · rename_i heq
    injection heq with h1 h2
    subst h1
    subst h2
    rfl

theorem splitArrow_append (u w : Str) (hu : hasArrow u = false) :
    splitArrow (u ++ '-' :: '-' :: '>' :: w) = u :: splitArrow w := by
  induction u with
  | nil => exact sa_cut w
  | cons c u2 ih =>
    have hu2 : hasArrow u2 = false := ha_cons_of_false c u2 hu
    have hwin : ¬(c = '-' ∧ ∃ r2,
        u2 ++ '-' :: '-' :: '>' :: w = '-' :: '>' :: r2) := by
      rintro ⟨rfl, r2, heq⟩
      cases u2 with
      | nil =>
        injection heq with g1 g2
        injection g2 with g3 g4
        exact absurd g3 (by decide)
      | cons x u3 =>
        injection heq with g1 g2
        subst g1
        cases u3 with
        | nil =>
          injection g2 with g3 g4
          exact absurd g3 (by decide)
        | cons y u4 =>
          injection g2 with g3 g4
          subst g3
          rw [ha_arrow] at hu
          cases hu
    show splitArrow (c :: (u2 ++ '-' :: '-' :: '>' :: w)) = _
    rw [sa_cons c _ hwin, ih hu2]
    rfl

theorem splitArrow_singleton (v : Str) (hv : hasArrow v = false) :
    splitArrow v = [v] := by
  induction v with
  | nil => rfl
  | cons c r ih =>
    rw [sa_cons c r (window_false_of_hasArrow_false c r hv),
      ih (ha_cons_of_false c r hv)]
    rfl

theorem hasArrow_append_arrow (u w : Str) :
    hasArrow (u ++ '-' :: '-' :: '>' :: w) = true := by
  induction u with
  | nil => exact ha_arrow w
  | cons c u2 ih =>
    show hasArrow (c :: (u2 ++ '-' :: '-' :: '>' :: w)) = true
    by_cases hwin : c = '-' ∧ ∃ r2,
        u2 ++ '-' :: '-' :: '>' :: w = '-' :: '>' :: r2
    · rcases hwin with ⟨rfl, r2, heq⟩
      rw [heq]
      rfl
    · rw [ha_cons c _ hwin]
      exact ih

theorem hasArrow_append_right (t b : Str) (h : hasArrow t = true) :
    hasArrow (t ++ b) = true := by
  induction t with
  | nil => cases h
  | cons c t2 ih =>
    by_cases hwin : c = '-' ∧ ∃ r2, t2 = '-' :: '>' :: r2
    · rcases hwin with ⟨rfl, r2, rfl⟩
      exact hasArrow_append_arrow [] (r2 ++ b)
    · rw [ha_cons c t2 hwin] at h
      have h2 := ih h
      show hasArrow (c :: (t2 ++ b)) = true
      by_cases hwin2 : c = '-' ∧ ∃ r2, t2 ++ b = '-' :: '>' :: r2
      · rcases hwin2 with ⟨rfl, r2, heq⟩
        rw [heq]
        rfl
      · rw [ha_cons c _ hwin2]
        exact h2

theorem hasArrow_append_left (a t : Str) (h : hasArrow t = true) :
    hasArrow (a ++ t) = true := by
  induction a with
  | nil => simpa
  | cons c a2 ih =>
    show hasArrow (c :: (a2 ++ t)) = true
    by_cases hwin : c = '-' ∧ ∃ r2, a2 ++ t = '-' :: '>' :: r2
    · rcases hwin with ⟨rfl, r2, heq⟩
      rw [heq]
      rfl
    · rw [ha_cons c _ hwin]
      exact ih

theorem hasArrow_jsTrim (s : Str) (h : hasArrow s = false) :
    hasArrow (jsTrim s) = false := by
  cases hb : hasArrow (jsTrim s) with
  | false => rfl
  | true =>
    have h2 : hasArrow ((s.takeWhile isWs ++ jsTrim s) ++
        ((s.dropWhile isWs).reverse.takeWhile isWs).reverse) = true :=
      hasArrow_append_right _ _ (hasArrow_append_left _ _ hb)
    have h6 := jsTrim_decomp s
    rw [← h6] at h2
    rw [h2] at h
    cases h

theorem hasArrow_of_no_dash (s : Str) (h : '-' ∉ s) : hasArrow s = false := by
  induction s with
  | nil => rfl
  | cons c r ih =>
    have hc : c ≠ '-' := by
      intro hh
      subst hh
      exact h (List.mem_cons_self _ _)
    rw [ha_cons c r (by rintro ⟨rfl, -⟩; exact hc rfl)]
    exact ih (fun hm => h (List.mem_cons_of_mem _ hm))

theorem hasArrow_append_sp (l w : Str) (hl : hasArrow l = false)
    (hw : hasArrow w = false) : hasArrow (l ++ ' ' :: w) = false := by
  induction l with
  | nil =>
    show hasArrow (' ' :: w) = false
    rw [ha_cons ' ' w (by rintro ⟨h1, -⟩; exact absurd h1 (by decide))]
    exact hw
  | cons c l2 ih =>
    have hl2 : hasArrow l2 = false := ha_cons_of_false c l2 hl
    have hwin : ¬(c = '-' ∧ ∃ r2, l2 ++ ' ' :: w = '-' :: '>' :: r2) := by
      rintro ⟨rfl, r2, heq⟩
      cases l2 with
      | nil =>
        injection heq with g1 g2
        exact absurd g1 (by decide)
      | cons x l3 =>
        injection heq with g1 g2
        subst g1
        cases l3 with
        | nil =>
          injection g2 with g3 g4
          exact absurd g3 (by decide)
        | cons y l4 =>
          injection g2 with g3 g4
          subst g3
          rw [ha_arrow] at hl
          cases hl
    show hasArrow (c :: (l2 ++ ' ' :: w)) = false
    rw [ha_cons c _ hwin]
    exact ih hl2

theorem hasArrow_joinSp (L : List Str) (h : ∀ l ∈ L, hasArrow l = false) :
    hasArrow (joinWith ' ' L) = false := by
  induction L with
  | nil => rfl
  | cons l ls ih =>
    have hl := h l (List.mem_cons_self _ _)
    have ih2 := ih (fun l2 hl2 => h l2 (List.mem_cons_of_mem _ hl2))
    cases ls with
    | nil => exact hl
    | cons l2 ls2 =>
      show hasArrow (l ++ ' ' :: joinWith ' ' (l2 :: ls2)) = false
      exact hasArrow_append_sp _ _ hl ih2

theorem splitArrow_head_prefix (s : Str) :
    ∀ q qs, splitArrow s = q :: qs → q <+: s := by
  induction s with
  | nil =>
    intro q qs h
    rw [show splitArrow [] = [[]] from rfl] at h
    injection h.symm with h1 h2
    subst h1
    exact List.nil_prefix
  | cons c r ih =>
    intro q qs h
    by_cases hwin : c = '-' ∧ ∃ r2, r = '-' :: '>' :: r2
    · rcases hwin with ⟨rfl, r2, rfl⟩
      rw [sa_cut] at h
      injection h.symm with h1 h2
      subst h1
      exact List.nil_prefix
    · rw [sa_cons c r hwin] at h
      cases hps : splitArrow r with
      | nil => exact absurd hps (splitArrow_ne_nil r)
      | cons q2 qs2 =>
        rw [hps] at h
        simp only [consHead] at h
        injection h.symm with h1 h2
        subst h1
        rcases ih q2 qs2 hps with ⟨t, ht⟩
        exact ⟨t, by rw [← ht]; rfl⟩

theorem mem_splitArrow_subset :
    ∀ (n : Nat) (s : Str), s.length ≤ n →
      ∀ p ∈ splitArrow s, ∀ c ∈ p, c ∈ s := by
  intro n
  induction n with
  | zero =>
    intro s hlen p hp c hc
    have h0 : s = [] := List.eq_nil_of_length_eq_zero (Nat.le_zero.mp hlen)
    subst h0
    rw [show splitArrow [] = [[]] from rfl] at hp
    rcases List.mem_singleton.mp hp with rfl
    cases hc
  | succ n ihn =>
    intro s hlen p hp c hc
    cases s with
    | nil =>
      rw [show splitArrow [] = [[]] from rfl] at hp
      rcases List.mem_singleton.mp hp with rfl
      cases hc
    | cons a r =>
      by_cases hwin : a = '-' ∧ ∃ r2, r = '-' :: '>' :: r2
      · rcases hwin with ⟨rfl, r2, rfl⟩
        rw [sa_cut] at hp
        rcases List.mem_cons.mp hp with rfl | hp2
        · cases hc
        · have := ihn r2 (by simp at hlen ⊢; omega) p hp2 c hc
          exact List.mem_cons_of_mem _ (List.mem_cons_of_mem _
            (List.mem_cons_of_mem _ this))
      · rw [sa_cons a r hwin] at hp
        cases hps : splitArrow r with
        | nil => exact absurd hps (splitArrow_ne_nil r)
        | cons q qs =>
          rw [hps] at hp
          simp only [consHead] at hp
          rcases List.mem_cons.mp hp with rfl | hp2
          · rcases List.mem_cons.mp hc with rfl | hc2
            · exact List.mem_cons_self _ _
            · exact List.mem_cons_of_mem _
                (ihn r (by simp at hlen ⊢; omega) q
                  (by rw [hps]; exact List.mem_cons_self _ _) c hc2)
          · exact List.mem_cons_of_mem _
              (ihn r (by simp at hlen ⊢; omega) p
                (by rw [hps]; exact List.mem_cons_of_mem _ hp2) c hc)

theorem mem_splitArrow_no_arrow :
    ∀ (n : Nat) (s : Str), s.length ≤ n →
      ∀ p ∈ splitArrow s, hasArrow p = false := by
  intro n
  induction n with
  | zero =>
    intro s hlen p hp
    have h0 : s = [] := List.eq_nil_of_length_eq_zero (Nat.le_zero.mp hlen)
    subst h0
    rw [show splitArrow [] = [[]] from rfl] at hp
    rcases List.mem_singleton.mp hp with rfl
    rfl
  | succ n ihn =>
    intro s hlen p hp
    cases s with
    | nil =>
      rw [show splitArrow [] = [[]] from rfl] at hp
      rcases List.mem_singleton.mp hp with rfl
      rfl
    | cons a r =>
      by_cases hwin : a = '-' ∧ ∃ r2, r = '-' :: '>' :: r2
      · rcases hwin with ⟨rfl, r2, rfl⟩
        rw [sa_cut] at hp
        rcases List.mem_cons.mp hp with rfl | hp2
        · rfl
        · exact ihn r2 (by simp at hlen ⊢; omega) p hp2
      · rw [sa_cons a r hwin] at hp
        cases hps : splitArrow r with
        | nil => exact absurd hps (splitArrow_ne_nil r)
        | cons q qs =>
          rw [hps] at hp
          simp only [consHead] at hp
          rcases List.mem_cons.mp hp with rfl | hp2
          · have hq : hasArrow q = false :=
              ihn r (by simp at hlen ⊢; omega) q
                (by rw [hps]; exact List.mem_cons_self _ _)
            have hqpre : q <+: r := splitArrow_head_prefix r q qs hps
            have hwin2 : ¬(a = '-' ∧ ∃ r2, q = '-' :: '>' :: r2) := by
              rintro ⟨rfl, r2, rfl⟩
              rcases hqpre with ⟨t, ht⟩
              exact hwin ⟨rfl, r2 ++ t, by rw [← ht]; rfl⟩
            rw [ha_cons a q hwin2]
            exact hq
          · exact ihn r (by simp at hlen ⊢; omega) p
              (by rw [hps]; exact List.mem_cons_of_mem _ hp2)

/-! ### Trim step lemmas and ordinal digits (claim C3) -/

theorem jsTrim_cons_ws (c : Char) (s : Str) (h : isWs c = true) :
    jsTrim (c :: s) = jsTrim s := by
  show (((c :: s).dropWhile isWs).reverse.dropWhile isWs).reverse = _
  rw [List.dropWhile_cons, if_pos h]
  rfl

theorem jsTrim_snoc_ws (s : Str) (c : Char) (h : isWs c = true) :
    jsTrim (s ++ [c]) = jsTrim s := by
  show (((s ++ [c]).dropWhile isWs).reverse.dropWhile isWs).reverse =
    ((s.dropWhile isWs).reverse.dropWhile isWs).reverse
  rw [List.dropWhile_append]
  by_cases hd : (s.dropWhile isWs).isEmpty
  · rw [if_pos hd]
    rw [show List.dropWhile isWs [c] = [] by simp [List.dropWhile_cons, h]]
    rw [show (s.dropWhile isWs) = [] from by simpa using hd]
  · rw [if_neg hd]
    rw [List.reverse_append]
    rw [show ([c] : Str).reverse = [c] from rfl]
    rw [show ([c] : Str) ++ (s.dropWhile isWs).reverse =
      c :: (s.dropWhile isWs).reverse from rfl]
    rw [List.dropWhile_cons, if_pos h]

theorem head_not_ws_of_trimmed (s : Str) (ht : jsTrim s = s) (hne : s ≠ []) :
    isWs (s.head hne) = false := by
  have h2 := jsTrim_head_not_ws s (by rw [ht]; exact hne)
  rw [show (jsTrim s).head (by rw [ht]; exact hne) = s.head hne from by
    congr 1] at h2
  exact h2

theorem getLast_not_ws_of_trimmed (s : Str) (ht : jsTrim s = s) (hne : s ≠ []) :
    isWs (s.getLast hne) = false := by
  have h2 := jsTrim_getLast_not_ws s (by rw [ht]; exact hne)
  rw [show (jsTrim s).getLast (by rw [ht]; exact hne) = s.getLast hne from by
    congr 1] at h2
  exact h2

theorem getLast_append_trimmed (u s : Str) (ht : jsTrim s = s) (hs : s ≠ [])
    (hh : u ++ s ≠ []) : isWs ((u ++ s).getLast hh) = false := by
  rw [List.getLast_append_of_ne_nil hs]
  exact getLast_not_ws_of_trimmed s ht hs

theorem getLast_append_last_not_ws (u s : Str) (hs : s ≠ [])
    (hl : isWs (s.getLast hs) = false) (hh : u ++ s ≠ []) :
    isWs ((u ++ s).getLast hh) = false := by
  rw [List.getLast_append_of_ne_nil hs]
  exact hl

theorem head_append_trimmed (s u : Str) (ht : jsTrim s = s) (hs : s ≠ [])
    (hh : s ++ u ≠ []) : isWs ((s ++ u).head hh) = false := by
  rw [List.head_append_left hs]
  exact head_not_ws_of_trimmed s ht hs

theorem digitChar_isDigit (n : Nat) (h : n < 10) :
    (Nat.digitChar n).isDigit = true := by
  interval_cases n <;> decide

theorem natToStr_digits : ∀ n : Nat, ∀ c ∈ natToStr n, c.isDigit = true := by
  intro n
  induction n using Nat.strong_induction_on with
  | _ n ih =>
    rw [natToStr]
    split
    · rename_i h
      intro c hc
      rcases List.mem_singleton.mp hc with rfl
      exact digitChar_isDigit n h
    · rename_i h
      intro c hc
      rcases List.mem_append.mp hc with h2 | h2
      · exact ih (n / 10) (Nat.div_lt_self (by omega) (by omega)) c h2
      · rcases List.mem_singleton.mp h2 with rfl
        exact digitChar_isDigit _ (Nat.mod_lt _ (by omega))

theorem natToStr_ne_nil (n : Nat) : natToStr n ≠ [] := by
  rw [natToStr]
  split
  · simp
  · simp

theorem isWs_of_isDigit (c : Char) (h : c.isDigit = true) : isWs c = false := by
  simp only [isWs, Bool.or_eq_false_iff, decide_eq_false_iff_not]
  refine ⟨⟨⟨⟨⟨⟨⟨?_, ?_⟩, ?_⟩, ?_⟩, ?_⟩, ?_⟩, ?_⟩, ?_⟩ <;>
    (intro hh; subst hh; exact absurd h (by decide))

theorem no_char_of_isDigit (s : Str) (hd : ∀ c ∈ s, c.isDigit = true)
    (x : Char) (hx : x.isDigit = false) : x ∉ s := by
  intro hm
  rw [hd x hm] at hx
  cases hx

theorem jsTrim_of_digits (s : Str) (hd : ∀ c ∈ s, c.isDigit = true) :
    jsTrim s = s := by
  refine jsTrim_eq_self s ?_ ?_
  · intro hh
    exact isWs_of_isDigit _ (hd _ (List.head_mem hh))
  · intro hh
    exact isWs_of_isDigit _ (hd _ (List.getLast_mem hh))

theorem idOf_facts (b : Cue) (i : Nat) (hinv : CueInv b) :
    idOf b i ≠ [] ∧ hasArrow (idOf b i) = false ∧ jsTrim (idOf b i) = idOf b i := by
  unfold idOf
  by_cases hb : b.id = []
  · rw [if_pos hb]
    refine ⟨natToStr_ne_nil _, ?_, jsTrim_of_digits _ (natToStr_digits _)⟩
    refine hasArrow_of_no_dash _ ?_
    exact no_char_of_isDigit _ (natToStr_digits _) '-' (by decide)
  · rw [if_neg hb]
    exact ⟨hb, hinv.id_arrow, hinv.id_trim⟩

theorem tlOf_hasArrow (b : Cue) : hasArrow (tlOf b) = true := by
  unfold tlOf
  rw [List.append_cons]
  exact hasArrow_append_arrow (b.start ++ [' ']) (' ' :: b.endS)

theorem tl_roundtrip (st en : Str)
    (hst_arrow : hasArrow st = false) (hst_trim : jsTrim st = st)
    (hen_arrow : hasArrow en = false) (hen_trim : jsTrim en = en) :
    ((splitArrow (jsTrim (st ++ ' ' :: '-' :: '-' :: '>' :: ' ' :: en))).map
        jsTrim).getD 0 [] = st ∧
    ((splitArrow (jsTrim (st ++ ' ' :: '-' :: '-' :: '>' :: ' ' :: en))).map
        jsTrim).getD 1 [] = en := by
  by_cases hst : st = []
  · subst hst
    by_cases hen : en = []
    · subst hen
      refine ⟨?_, ?_⟩ <;> rfl
    · simp only [List.nil_append]
      rw [jsTrim_cons_ws ' ' _ (by decide)]
      have htr : jsTrim ('-' :: '-' :: '>' :: ' ' :: en) =
          '-' :: '-' :: '>' :: ' ' :: en := by
        refine jsTrim_eq_self _ (fun hh => ?_) (fun hh => ?_)
        · show isWs '-' = false
          decide
        · exact getLast_append_trimmed ['-', '-', '>', ' '] en hen_trim hen hh
      rw [htr]
      rw [show ('-' :: '-' :: '>' :: ' ' :: en) =
        ([] : Str) ++ '-' :: '-' :: '>' :: (' ' :: en) from rfl]
      rw [splitArrow_append [] (' ' :: en) rfl]
      have hsp : hasArrow (' ' :: en) = false := by
        rw [ha_cons ' ' en (by rintro ⟨h1, -⟩; exact absurd h1 (by decide))]
        exact hen_arrow
      rw [splitArrow_singleton (' ' :: en) hsp]
      constructor
      · rfl
      · show jsTrim (' ' :: en) = en
        rw [jsTrim_cons_ws ' ' en (by decide), hen_trim]
  · by_cases hen : en = []
    · subst hen
      rw [show (st ++ ' ' :: '-' :: '-' :: '>' :: ' ' :: ([] : Str)) =
        (st ++ [' ', '-', '-', '>']) ++ [' '] from by simp]
      rw [jsTrim_snoc_ws _ ' ' (by decide)]
      have htr : jsTrim (st ++ [' ', '-', '-', '>']) = st ++ [' ', '-', '-', '>'] := by
        refine jsTrim_eq_self _ (fun hh => ?_) (fun hh => ?_)
        · exact head_append_trimmed st [' ', '-', '-', '>'] hst_trim hst hh
        · exact getLast_append_last_not_ws st [' ', '-', '-', '>']
            (by decide) (by decide) hh
      rw [htr]
      rw [show st ++ ([' ', '-', '-', '>'] : Str) =
        (st ++ [' ']) ++ '-' :: '-' :: '>' :: ([] : Str) from by simp]
      rw [splitArrow_append (st ++ [' ']) []
        (hasArrow_append_sp st [] hst_arrow rfl)]
      constructor
      · show jsTrim (st ++ [' ']) = st
        rw [jsTrim_snoc_ws st ' ' (by decide), hst_trim]
      · rfl
    · have htr : jsTrim (st ++ ' ' :: '-' :: '-' :: '>' :: ' ' :: en) =
          st ++ ' ' :: '-' :: '-' :: '>' :: ' ' :: en := by
        refine jsTrim_eq_self _ (fun hh => ?_) (fun hh => ?_)
        · exact head_append_trimmed st (' ' :: '-' :: '-' :: '>' :: ' ' :: en)
            hst_trim hst hh
        · refine getLast_append_last_not_ws st
            (' ' :: '-' :: '-' :: '>' :: ' ' :: en) (by simp) ?_ hh
          exact getLast_append_last_not_ws [' ', '-', '-', '>', ' '] en hen
            (getLast_not_ws_of_trimmed en hen_trim hen) (by simp [hen])
      rw [htr]
      rw [List.append_cons st ' ' ('-' :: '-' :: '>' :: ' ' :: en)]
      rw [splitArrow_append (st ++ [' ']) (' ' :: en)
        (hasArrow_append_sp st [] hst_arrow rfl)]
      have hsp : hasArrow (' ' :: en) = false := by
        rw [ha_cons ' ' en (by rintro ⟨h1, -⟩; exact absurd h1 (by decide))]
        exact hen_arrow
      rw [splitArrow_singleton (' ' :: en) hsp]
      constructor
      · show jsTrim (st ++ [' ']) = st
        rw [jsTrim_snoc_ws st ' ' (by decide), hst_trim]
      · show jsTrim (' ' :: en) = en
        rw [jsTrim_cons_ws ' ' en (by decide), hen_trim]

theorem ne_nl_of_not_ws (c : Char) (h : isWs c = false) : c ≠ '\n' := by
  intro hc
  subst hc
  exact absurd h (by decide)

theorem ne_cr_of_not_ws (c : Char) (h : isWs c = false) : c ≠ '\r' := by
  intro hc
  subst hc
  exact absurd h (by decide)

theorem head?_append_left (s w : Str) (hs : s ≠ []) : (s ++ w).head? = s.head? := by
  cases s with
  | nil => exact absurd rfl hs
  | cons a l => rfl

theorem head?_trimmed_not_ws (s : Str) (ht : jsTrim s = s) :
    ∀ d, s.head? = some d → isWs d = false := by
  intro d hd
  cases s with
  | nil => cases hd
  | cons a l =>
    injection hd with hd
    subst hd
    exact head_not_ws_of_trimmed (a :: l) ht (by simp)

theorem getLast?_trimmed_not_ws (s : Str) (ht : jsTrim s = s) :
    ∀ d, s.getLast? = some d → isWs d = false := by
  intro d hd
  cases hs : s with
  | nil =>
    subst hs
    cases hd
  | cons a l =>
    subst hs
    rw [List.getLast?_eq_getLast (a :: l) (by simp)] at hd
    injection hd with hd
    rw [← hd]
    exact getLast_not_ws_of_trimmed _ ht (by simp)

theorem head?_ne_nl_of_trimmed (s : Str) (ht : jsTrim s = s) :
    ∀ d, s.head? = some d → d ≠ '\n' :=
  fun d hd => ne_nl_of_not_ws d (head?_trimmed_not_ws s ht d hd)

theorem getLast?_ne_nl_of_trimmed (s : Str) (ht : jsTrim s = s) :
    ∀ d, s.getLast? = some d → d ≠ '\n' :=
  fun d hd => ne_nl_of_not_ws d (getLast?_trimmed_not_ws s ht d hd)

theorem getLast_ne_nl_of_getLast? (s : Str)
    (h : ∀ d, s.getLast? = some d → d ≠ '\n') (hh : s ≠ []) :
    s.getLast hh ≠ '\n' :=
  h _ (List.getLast?_eq_getLast s hh)

theorem idOf_nl_cr (b : Cue) (i : Nat) (hinv : CueInv b) :
    '\n' ∉ idOf b i ∧ '\r' ∉ idOf b i := by
  unfold idOf
  by_cases hb : b.id = []
  · rw [if_pos hb]
    exact ⟨no_char_of_isDigit _ (natToStr_digits _) '\n' (by decide),
      no_char_of_isDigit _ (natToStr_digits _) '\r' (by decide)⟩
  · rw [if_neg hb]
    exact ⟨hinv.id_nl, hinv.id_cr⟩

theorem tlOf_ne_nil (b : Cue) : tlOf b ≠ [] := by
  unfold tlOf
  simp

theorem tlOf_nl (b : Cue) (hinv : CueInv b) : '\n' ∉ tlOf b := by
  unfold tlOf
  intro hm
  rcases List.mem_append.mp hm with h | h
  · exact hinv.start_nl h
  · simp only [List.mem_cons] at h
    rcases h with h | h | h | h | h | h
    · exact absurd h (by decide)
    · exact absurd h (by decide)
    · exact absurd h (by decide)
    · exact absurd h (by decide)
    · exact absurd h (by decide)
    · exact hinv.end_nl h

theorem tlOf_cr (b : Cue) (hinv : CueInv b) : '\r' ∉ tlOf b := by
  unfold tlOf
  intro hm
  rcases List.mem_append.mp hm with h | h
  · exact hinv.start_cr h
  · simp only [List.mem_cons] at h
    rcases h with h | h | h | h | h | h
    · exact absurd h (by decide)
    · exact absurd h (by decide)
    · exact absurd h (by decide)
    · exact absurd h (by decide)
    · exact absurd h (by decide)
    · exact hinv.end_cr h

theorem tlOf_head?_ne_nl (b : Cue) (hinv : CueInv b) :
    ∀ d, (tlOf b).head? = some d → d ≠ '\n' := by
  intro d hd
  unfold tlOf at hd
  cases hs : b.start with
  | nil =>
    rw [hs] at hd
    injection hd with hd
    subst hd
    decide
  | cons a l =>
    rw [hs] at hd
    injection hd with hd
    subst hd
    have h2 : b.start.head? = some a := by rw [hs]; rfl
    exact ne_nl_of_not_ws a (head?_trimmed_not_ws b.start hinv.start_trim a h2)

theorem tlOf_getLast?_ne_nl (b : Cue) (hinv : CueInv b) :
    ∀ d, (tlOf b).getLast? = some d → d ≠ '\n' := by
  intro d hd
  unfold tlOf at hd
  cases hs : b.endS with
  | nil =>
    rw [hs] at hd
    rw [List.getLast?_append_of_ne_nil b.start (by simp)] at hd
    rw [show (' ' :: '-' :: '-' :: '>' :: ' ' :: ([] : Str)).getLast? = some ' '
      from by decide] at hd
    injection hd with hd
    subst hd
    decide
  | cons a l =>
    rw [hs] at hd
    rw [List.getLast?_append_of_ne_nil b.start (by simp)] at hd
    rw [show (' ' :: '-' :: '-' :: '>' :: ' ' :: (a :: l) : Str) =
      [' ', '-', '-', '>', ' '] ++ (a :: l) from rfl] at hd
    rw [List.getLast?_append_of_ne_nil _ (by simp)] at hd
    have h2 : b.endS.getLast? = some d := by rw [hs]; exact hd
    exact ne_nl_of_not_ws d (getLast?_trimmed_not_ws b.endS hinv.end_trim d h2)

theorem u0_cr (b : Cue) (i : Nat) (hinv : CueInv b) :
    '\r' ∉ idOf b i ++ '\n' :: tlOf b := by
  intro hm
  rcases List.mem_append.mp hm with h | h
  · exact (idOf_nl_cr b i hinv).2 h
  · rcases List.mem_cons.mp h with h | h
    · exact absurd h (by decide)
    · exact tlOf_cr b hinv h

theorem coreOf_cr (b : Cue) (i : Nat) (hinv : CueInv b) : '\r' ∉ coreOf b i := by
  unfold coreOf
  intro hm
  rcases List.mem_append.mp hm with h | h
  · exact u0_cr b i hinv h
  · rcases List.mem_cons.mp h with h | h
    · exact absurd h (by decide)
    · exact hinv.text_cr h

theorem hasNN_u0 (b : Cue) (i : Nat) (hinv : CueInv b) :
    hasNN (idOf b i ++ '\n' :: tlOf b) = false := by
  refine hasNN_append_no_nl_left _ _ (idOf_nl_cr b i hinv).1 ?_
  refine hasNN_cons_nl _ (hasNN_of_no_nl _ (tlOf_nl b hinv)) ?_
  exact tlOf_head?_ne_nl b hinv

theorem u0_getLast?_ne_nl (b : Cue) (i : Nat) (hinv : CueInv b) :
    ∀ d, (idOf b i ++ '\n' :: tlOf b).getLast? = some d → d ≠ '\n' := by
  intro d hd
  rw [List.getLast?_append_of_ne_nil _ (by simp)] at hd
  rw [show ('\n' :: tlOf b : Str) = ['\n'] ++ tlOf b from rfl] at hd
  rw [List.getLast?_append_of_ne_nil _ (tlOf_ne_nil b)] at hd
  exact tlOf_getLast?_ne_nl b hinv d hd

theorem hasNN_coreOf (b : Cue) (i : Nat) (hinv : CueInv b) :
    hasNN (coreOf b i) = false := by
  show hasNN ((idOf b i ++ '\n' :: tlOf b) ++ '\n' :: b.text) = false
  rw [List.append_assoc, List.cons_append]
  refine hasNN_append_no_nl_left _ _ (idOf_nl_cr b i hinv).1 ?_
  refine hasNN_cons_nl _ ?_ ?_
  · refine hasNN_append_no_nl_left _ _ (tlOf_nl b hinv) ?_
    refine hasNN_cons_nl _ hinv.text_nn ?_
    exact head?_ne_nl_of_trimmed b.text hinv.text_trim
  · intro d hd
    rw [head?_append_left (tlOf b) _ (tlOf_ne_nil b)] at hd
    exact tlOf_head?_ne_nl b hinv d hd

theorem coreOf_getLast?_ne_nl (b : Cue) (i : Nat) (hinv : CueInv b)
    (ht : b.text ≠ []) :
    ∀ d, (coreOf b i).getLast? = some d → d ≠ '\n' := by
  intro d hd
  rw [show coreOf b i = (idOf b i ++ '\n' :: tlOf b) ++ '\n' :: b.text
    from rfl] at hd
  rw [List.getLast?_append_of_ne_nil _ (by simp)] at hd
  rw [show ('\n' :: b.text : Str) = ['\n'] ++ b.text from rfl] at hd
  rw [List.getLast?_append_of_ne_nil _ ht] at hd
  exact getLast?_ne_nl_of_trimmed b.text hinv.text_trim d hd

theorem text_rejoin (t : Str) (hcr : '\r' ∉ t) (htrim : jsTrim t = t)
    (hnn : hasNN t = false) :
    jsTrim (joinWith '\n' ((splitNL t).filter (fun l => l ≠ []))) = t := by
  by_cases ht : t = []
  · subst ht
    rfl
  · have hparts : ∀ p ∈ splitNL t, p ≠ [] := by
      refine splitNL_parts_ne_nil t.length t le_rfl ht hcr hnn ?_ ?_
      · exact head?_ne_nl_of_trimmed t htrim
      · exact getLast?_ne_nl_of_trimmed t htrim
    have hfilter : (splitNL t).filter (fun l => l ≠ []) = splitNL t :=
      List.filter_eq_self.mpr (by intro a ha; simpa using hparts a ha)
    rw [hfilter, joinWith_splitNL t hcr, htrim]

theorem splitNL_core (b : Cue) (i : Nat) (hinv : CueInv b) :
    splitNL (coreOf b i) = idOf b i :: tlOf b :: splitNL b.text := by
  show splitNL ((idOf b i ++ '\n' :: tlOf b) ++ '\n' :: b.text) = _
  rw [List.append_assoc, List.cons_append]
  rw [splitNL_append (idOf b i) (idOf_nl_cr b i hinv).2 (tlOf b ++ '\n' :: b.text)]
  rw [splitNL_append (tlOf b) (tlOf_cr b hinv) b.text]
  rw [splitNL_singleton (idOf b i) (idOf_nl_cr b i hinv).1 (idOf_nl_cr b i hinv).2]
  rw [splitNL_singleton (tlOf b) (tlOf_nl b hinv) (tlOf_cr b hinv)]
  rfl

theorem filter_splitNL_core (b : Cue) (i : Nat) (hinv : CueInv b) :
    (splitNL (coreOf b i)).filter (fun l => l ≠ []) =
      idOf b i :: tlOf b :: (splitNL b.text).filter (fun l => l ≠ []) := by
  rw [splitNL_core b i hinv]
  simp [List.filter_cons, (idOf_facts b i hinv).1, tlOf_ne_nil b]

theorem filter_splitNL_core_nl (b : Cue) (i : Nat) (hinv : CueInv b) :
    (splitNL (coreOf b i ++ ['\n'])).filter (fun l => l ≠ []) =
      idOf b i :: tlOf b :: (splitNL b.text).filter (fun l => l ≠ []) := by
  rw [show (['\n'] : Str) = '\n' :: [] from rfl]
  rw [splitNL_append (coreOf b i) (coreOf_cr b i hinv) []]
  rw [splitNL_core b i hinv]
  rw [show splitNL [] = [[]] from rfl]
  simp [List.filter_append, List.filter_cons, (idOf_facts b i hinv).1, tlOf_ne_nil b]

theorem filter_splitNL_u0 (b : Cue) (i : Nat) (hinv : CueInv b) :
    (splitNL (idOf b i ++ '\n' :: tlOf b)).filter (fun l => l ≠ []) =
      [idOf b i, tlOf b] := by
  rw [splitNL_append (idOf b i) (idOf_nl_cr b i hinv).2 (tlOf b)]
  rw [splitNL_singleton (idOf b i) (idOf_nl_cr b i hinv).1 (idOf_nl_cr b i hinv).2]
  rw [splitNL_singleton (tlOf b) (tlOf_nl b hinv) (tlOf_cr b hinv)]
  simp [List.filter_cons, (idOf_facts b i hinv).1, tlOf_ne_nil b]

theorem parseBlock_of_lines (b : Cue) (i : Nat) (p : Str) (hinv : CueInv b)
    (hl : (splitNL p).filter (fun l => l ≠ []) =
      idOf b i :: tlOf b :: (splitNL b.text).filter (fun l => l ≠ [])) :
    parseBlock p = some (cueOf b i) := by
  obtain ⟨hid_ne, hid_arrow, hid_trim⟩ := idOf_facts b i hinv
  have hfind : (idOf b i :: tlOf b :: (splitNL b.text).filter
      (fun l => l ≠ [])).findIdx? hasArrow = some 1 := by
    simp [List.findIdx?, hid_arrow, tlOf_hasArrow b]
  have htl := tl_roundtrip b.start b.endS hinv.start_arrow hinv.start_trim
    hinv.end_arrow hinv.end_trim
  have htl1 : ((splitArrow (jsTrim (tlOf b))).map jsTrim).getD 0 [] = b.start := htl.1
  have htl2 : ((splitArrow (jsTrim (tlOf b))).map jsTrim).getD 1 [] = b.endS := htl.2
  simp only [parseBlock, hl, hfind]
  rw [if_neg (by simp)]
  rw [show (idOf b i :: tlOf b :: (splitNL b.text).filter
    (fun l => l ≠ [])).take 1 = [idOf b i] from rfl]
  rw [show (idOf b i :: tlOf b :: (splitNL b.text).filter
    (fun l => l ≠ [])).getD 1 [] = tlOf b from rfl]
  rw [show (idOf b i :: tlOf b :: (splitNL b.text).filter
    (fun l => l ≠ [])).drop 2 = (splitNL b.text).filter (fun l => l ≠ []) from rfl]
  rw [show joinWith ' ' [idOf b i] = idOf b i from rfl]
  rw [hid_trim, htl1, htl2,
    text_rejoin b.text hinv.text_cr hinv.text_trim hinv.text_nn]
  rfl

theorem parseBlock_cons_nl (p : Str) : parseBlock ('\n' :: p) = parseBlock p := by
  unfold parseBlock
  rw [snl_nl]
  simp [List.filter_cons]

theorem filterMap_parseBlock_consHead (L : List Str) (hL : L ≠ []) :
    (consHead '\n' L).filterMap parseBlock = L.filterMap parseBlock := by
  cases L with
  | nil => exact absurd rfl hL
  | cons x xs =>
    show (('\n' :: x) :: xs).filterMap parseBlock = _
    rw [List.filterMap_cons, List.filterMap_cons, parseBlock_cons_nl]

theorem buildBlock_eq (b : Cue) (i : Nat) :
    buildBlock b i = coreOf b i ++ ['\n'] := rfl

theorem buildSRTAux_cons_head (i : Nat) (b : Cue) (rest : List Cue)
    (hinv : CueInv b) :
    ∃ d w, buildSRTAux i (b :: rest) = d :: w ∧ d ≠ '\n' ∧ d ≠ '\r' := by
  obtain ⟨hne, -, htrim⟩ := idOf_facts b i hinv
  cases hid : idOf b i with
  | nil => exact absurd hid hne
  | cons d t =>
    have hws : isWs d = false :=
      head?_trimmed_not_ws (idOf b i) htrim d (by rw [hid]; rfl)
    have h1 : buildBlock b i =
        d :: (t ++ ('\n' :: tlOf b ++ ('\n' :: b.text ++ ['\n']))) := by
      rw [buildBlock_eq]
      show ((idOf b i ++ '\n' :: tlOf b) ++ '\n' :: b.text) ++ ['\n'] = _
      rw [hid]
      simp [List.append_assoc]
    cases rest with
    | nil =>
      exact ⟨d, _, h1, ne_nl_of_not_ws d hws, ne_cr_of_not_ws d hws⟩
    | cons b2 r2 =>
      refine ⟨d, (t ++ ('\n' :: tlOf b ++ ('\n' :: b.text ++ ['\n']))) ++
        '\n' :: buildSRTAux (i + 1) (b2 :: r2), ?_,
        ne_nl_of_not_ws d hws, ne_cr_of_not_ws d hws⟩
      show buildBlock b i ++ '\n' :: buildSRTAux (i + 1) (b2 :: r2) = _
      rw [h1, List.cons_append]

theorem parseSRT_buildSRTAux :
    ∀ (cues : List Cue), (∀ b ∈ cues, CueInv b) → ∀ i : Nat,
      (splitDouble (buildSRTAux i cues)).filterMap parseBlock = cuesOf i cues := by
  intro cues
  induction cues with
  | nil =>
    intro _ i
    rfl
  | cons b rest ih =>
    intro hinv i
    have hb := hinv b (List.mem_cons_self _ _)
    have hrest := fun b2 hb2 => hinv b2 (List.mem_cons_of_mem _ hb2)
    by_cases htext : b.text = []
    · have hcore : coreOf b i = (idOf b i ++ '\n' :: tlOf b) ++ ['\n'] := by
        show (idOf b i ++ '\n' :: tlOf b) ++ '\n' :: b.text = _
        rw [htext]
      have hu0cr := u0_cr b i hb
      have hu0last : ∀ hh : (idOf b i ++ '\n' :: tlOf b) ≠ [],
          (idOf b i ++ '\n' :: tlOf b).getLast hh ≠ '\n' :=
        fun hh => getLast_ne_nl_of_getLast? _ (u0_getLast?_ne_nl b i hb) hh
      have hsdu0 : splitDouble (idOf b i ++ '\n' :: tlOf b) =
          [idOf b i ++ '\n' :: tlOf b] :=
        splitDouble_single (idOf b i ++ '\n' :: tlOf b).length
          (idOf b i ++ '\n' :: tlOf b) le_rfl hu0cr (hasNN_u0 b i hb)
      have hpb : parseBlock (idOf b i ++ '\n' :: tlOf b) = some (cueOf b i) := by
        refine parseBlock_of_lines b i _ hb ?_
        rw [htext]
        exact filter_splitNL_u0 b i hb
      cases rest with
      | nil =>
        have hbb : buildSRTAux i [b] =
            (idOf b i ++ '\n' :: tlOf b) ++ '\n' :: '\n' :: [] := by
          show buildBlock b i = _
          rw [buildBlock_eq, hcore]
          simp
        rw [hbb]
        rw [splitDouble_append_noCR (idOf b i ++ '\n' :: tlOf b).length
          (idOf b i ++ '\n' :: tlOf b) le_rfl hu0cr hu0last []]
        rw [hsdu0]
        rw [show splitDouble [] = [[]] from rfl]
        simp [List.filterMap_cons, hpb, show parseBlock [] = none from rfl, cuesOf]
      | cons b2 r2 =>
        have hbb : buildSRTAux i (b :: b2 :: r2) =
            (idOf b i ++ '\n' :: tlOf b) ++
              '\n' :: '\n' :: ('\n' :: buildSRTAux (i + 1) (b2 :: r2)) := by
          show buildBlock b i ++ '\n' :: buildSRTAux (i + 1) (b2 :: r2) = _
          rw [buildBlock_eq, hcore]
          simp
        rw [hbb]
        rw [splitDouble_append_noCR (idOf b i ++ '\n' :: tlOf b).length
          (idOf b i ++ '\n' :: tlOf b) le_rfl hu0cr hu0last
          ('\n' :: buildSRTAux (i + 1) (b2 :: r2))]
        rw [hsdu0]
        obtain ⟨d, w, haux, hd1, hd2⟩ :=
          buildSRTAux_cons_head (i + 1) b2 r2 (hrest b2 (List.mem_cons_self _ _))
        rw [haux, sd_nl_cons d w hd1 hd2, ← haux]
        rw [List.singleton_append, List.filterMap_cons, hpb]
        rw [filterMap_parseBlock_consHead _ (splitDouble_ne_nil _)]
        rw [ih hrest (i + 1)]
        rfl
    · have hcorecr := coreOf_cr b i hb
      have hcorelast : ∀ hh : coreOf b i ≠ [], (coreOf b i).getLast hh ≠ '\n' :=
        fun hh => getLast_ne_nl_of_getLast? _ (coreOf_getLast?_ne_nl b i hb htext) hh
      have hpb : parseBlock (coreOf b i) = some (cueOf b i) :=
        parseBlock_of_lines b i _ hb (filter_splitNL_core b i hb)
      cases rest with
      | nil =>
        have hbb : buildSRTAux i [b] = coreOf b i ++ ['\n'] := buildBlock_eq b i
        rw [hbb]
        have hnn2 : hasNN (coreOf b i ++ ['\n']) = false :=
          hasNN_snoc_nl _ (hasNN_coreOf b i hb) (coreOf_getLast?_ne_nl b i hb htext)
        have hcr2 : '\r' ∉ coreOf b i ++ ['\n'] := by
          intro hm
          rcases List.mem_append.mp hm with h | h
          · exact hcorecr h
          · exact absurd (List.mem_singleton.mp h) (by decide)
        rw [splitDouble_single (coreOf b i ++ ['\n']).length (coreOf b i ++ ['\n'])
          le_rfl hcr2 hnn2]
        have hpb2 : parseBlock (coreOf b i ++ ['\n']) = some (cueOf b i) :=
          parseBlock_of_lines b i _ hb (filter_splitNL_core_nl b i hb)
        simp [List.filterMap_cons, hpb2, cuesOf]
      | cons b2 r2 =>
        have hbb : buildSRTAux i (b :: b2 :: r2) =
            coreOf b i ++ '\n' :: '\n' :: buildSRTAux (i + 1) (b2 :: r2) := by
          show buildBlock b i ++ '\n' :: buildSRTAux (i + 1) (b2 :: r2) = _
          rw [buildBlock_eq]
          simp
        rw [hbb]
        rw [splitDouble_append_noCR (coreOf b i).length (coreOf b i) le_rfl
          hcorecr hcorelast (buildSRTAux (i + 1) (b2 :: r2))]
        rw [splitDouble_single (coreOf b i).length (coreOf b i) le_rfl hcorecr
          (hasNN_coreOf b i hb)]
        rw [List.singleton_append, List.filterMap_cons, hpb]
        rw [ih hrest (i + 1)]
        rfl

theorem getD_mem_of_lt (l : List Str) (k : Nat) (hk : k < l.length) :
    l.getD k [] ∈ l := by
  rw [List.getD_eq_getElem l [] hk]
  exact List.getElem_mem hk

theorem mem_joinWith (sep : Char) :
    ∀ (L : List Str) (c : Char), c ∈ joinWith sep L → c = sep ∨ ∃ l ∈ L, c ∈ l := by
  intro L
  induction L with
  | nil =>
    intro c hc
    simp [joinWith] at hc
  | cons l ls ih =>
    intro c hc
    cases ls with
    | nil => exact Or.inr ⟨l, List.mem_cons_self _ _, hc⟩
    | cons l2 ls2 =>
      rw [show joinWith sep (l :: l2 :: ls2) =
        l ++ sep :: joinWith sep (l2 :: ls2) from rfl] at hc
      rcases List.mem_append.mp hc with h | h
      · exact Or.inr ⟨l, List.mem_cons_self _ _, h⟩
      · rcases List.mem_cons.mp h with h | h
        · exact Or.inl h
        · rcases ih c h with h2 | ⟨l3, hl3, hc3⟩
          · exact Or.inl h2
          · exact Or.inr ⟨l3, List.mem_cons_of_mem _ hl3, hc3⟩

theorem findIdx?_go_spec (p : Str → Bool) :
    ∀ (l : List Str) (s k : Nat), List.findIdx? p l s = some k →
      s ≤ k ∧ k - s < l.length ∧ p (l.getD (k - s) []) = true ∧
        ∀ x ∈ l.take (k - s), p x = false := by
  intro l
  induction l with
  | nil =>
    intro s k hk
    simp [List.findIdx?] at hk
  | cons a l2 ih =>
    intro s k hk
    simp only [List.findIdx?] at hk
    by_cases hp : p a
    · rw [if_pos hp] at hk
      injection hk with hk
      subst hk
      refine ⟨le_rfl, by simp, ?_, ?_⟩
      · rw [Nat.sub_self]
        exact hp
      · intro x hx
        rw [Nat.sub_self] at hx
        simp at hx
    · rw [if_neg hp] at hk
      obtain ⟨h1, h2, h3, h4⟩ := ih (s + 1) k hk
      have hks : k - s = (k - (s + 1)) + 1 := by omega
      refine ⟨by omega, by simp; omega, ?_, ?_⟩
      · rw [hks]
        exact h3
      · intro x hx
        rw [hks, List.take_succ_cons] at hx
        rcases List.mem_cons.mp hx with h | h
        · subst h
          simpa using hp
        · exact h4 x h

theorem findIdx?_spec (p : Str → Bool) (l : List Str) (k : Nat)
    (h : l.findIdx? p = some k) :
    k < l.length ∧ p (l.getD k []) = true ∧ ∀ x ∈ l.take k, p x = false := by
  obtain ⟨h1, h2, h3, h4⟩ := findIdx?_go_spec p l 0 k h
  rw [Nat.sub_zero] at h2 h3 h4
  exact ⟨h2, h3, h4⟩

theorem parseBlock_some_inv (p : Str) (b : Cue) (h : parseBlock p = some b) :
    ∃ k, ((splitNL p).filter (fun l => l ≠ [])).findIdx? hasArrow = some k ∧
      b.id = jsTrim (joinWith ' '
        (((splitNL p).filter (fun l => l ≠ [])).take k)) ∧
      b.start = ((splitArrow (jsTrim (((splitNL p).filter
        (fun l => l ≠ [])).getD k []))).map jsTrim).getD 0 [] ∧
      b.endS = ((splitArrow (jsTrim (((splitNL p).filter
        (fun l => l ≠ [])).getD k []))).map jsTrim).getD 1 [] ∧
      b.text = jsTrim (joinWith '\n'
        (((splitNL p).filter (fun l => l ≠ [])).drop (k + 1))) := by
  simp only [parseBlock] at h
  split at h
  · exact absurd h (by simp)
  · split at h
    · exact absurd h (by simp)
    · rename_i k hfind
      injection h with h
      subst h
      exact ⟨k, hfind, rfl, rfl, rfl, rfl⟩

theorem parseSRT_inv (x : Str) (hcr : '\r' ∉ x) : ∀ b ∈ parseSRT x, CueInv b := by
  intro b hb
  obtain ⟨p, hp, hpb⟩ := List.mem_filterMap.mp hb
  have hpcr : '\r' ∉ p := fun hm =>
    hcr (mem_splitDouble_subset x.length x le_rfl hcr p hp '\r' hm)
  obtain ⟨k, hfind, hid, hstart, hend, htext⟩ := parseBlock_some_inv p b hpb
  set lines := (splitNL p).filter (fun l => l ≠ []) with hlines
  have hmem : ∀ l ∈ lines, l ≠ [] ∧ '\n' ∉ l ∧ '\r' ∉ l := by
    intro l hl
    have hl2 : l ∈ splitNL p := List.mem_of_mem_filter hl
    have hne : l ≠ [] := by simpa using List.of_mem_filter hl
    obtain ⟨hnl, hsub⟩ := mem_splitNL_noCR p.length p le_rfl hpcr l hl2
    exact ⟨hne, hnl, fun hm => hpcr (hsub '\r' hm)⟩
  obtain ⟨hklt, hkarrow, hkfalse⟩ := findIdx?_spec hasArrow lines k hfind
  obtain ⟨-, htl_nl2, htl_cr2⟩ := hmem _ (getD_mem_of_lt lines k hklt)
  have hparts : ∀ j,
      (∀ c ∈ ((splitArrow (jsTrim (lines.getD k []))).map jsTrim).getD j [],
        c ∈ lines.getD k []) ∧
      hasArrow (((splitArrow (jsTrim (lines.getD k []))).map jsTrim).getD j [])
        = false ∧
      jsTrim (((splitArrow (jsTrim (lines.getD k []))).map jsTrim).getD j []) =
        ((splitArrow (jsTrim (lines.getD k []))).map jsTrim).getD j [] := by
    intro j
    by_cases hj : j < (splitArrow (jsTrim (lines.getD k []))).length
    · have hgd : ((splitArrow (jsTrim (lines.getD k []))).map jsTrim).getD j [] =
          jsTrim ((splitArrow (jsTrim (lines.getD k []))).getD j []) := by
        rw [List.getD_eq_getElem?_getD, List.getElem?_map,
          List.getElem?_eq_getElem hj, List.getD_eq_getElem _ [] hj]
        rfl
      have hq_mem : (splitArrow (jsTrim (lines.getD k []))).getD j [] ∈
          splitArrow (jsTrim (lines.getD k [])) := getD_mem_of_lt _ _ hj
      refine ⟨?_, ?_, ?_⟩
      · intro c hc
        rw [hgd] at hc
        have hc2 := mem_jsTrim _ _ hc
        have hc3 := mem_splitArrow_subset (jsTrim (lines.getD k [])).length _
          le_rfl _ hq_mem c hc2
        exact mem_jsTrim _ _ hc3
      · rw [hgd]
        exact hasArrow_jsTrim _ (mem_splitArrow_no_arrow
          (jsTrim (lines.getD k [])).length _ le_rfl _ hq_mem)
      · rw [hgd]
        exact jsTrim_idem _
    · have hgd : ((splitArrow (jsTrim (lines.getD k []))).map jsTrim).getD j []
          = [] := by
        rw [List.getD_eq_getElem?_getD, List.getElem?_eq_none
          (by simpa using Nat.le_of_not_lt hj)]
        rfl
      rw [hgd]
      exact ⟨fun c hc => absurd hc (List.not_mem_nil c), rfl, rfl⟩
  refine ⟨?_, ?_, ?_, ?_, ?_, ?_, ?_, ?_, ?_, ?_, ?_, ?_, ?_, ?_, ?_⟩
  · rw [hid]
    intro hm
    rcases mem_joinWith ' ' _ '\n' (mem_jsTrim _ _ hm) with h | ⟨l, hl, hcl⟩
    · exact absurd h (by decide)
    · exact (hmem l (List.take_subset _ _ hl)).2.1 hcl
  · rw [hid]
    intro hm
    rcases mem_joinWith ' ' _ '\r' (mem_jsTrim _ _ hm) with h | ⟨l, hl, hcl⟩
    · exact absurd h (by decide)
    · exact (hmem l (List.take_subset _ _ hl)).2.2 hcl
  · rw [hid]
    exact hasArrow_jsTrim _ (hasArrow_joinSp _ hkfalse)
  · rw [hid]
    exact jsTrim_idem _
  · rw [hstart]
    intro hm
    exact htl_nl2 ((hparts 0).1 '\n' hm)
  · rw [hstart]
    intro hm
    exact htl_cr2 ((hparts 0).1 '\r' hm)
  · rw [hstart]
    exact (hparts 0).2.1
  · rw [hstart]
    exact (hparts 0).2.2
  · rw [hend]
    intro hm
    exact htl_nl2 ((hparts 1).1 '\n' hm)
  · rw [hend]
    intro hm
    exact htl_cr2 ((hparts 1).1 '\r' hm)
  · rw [hend]
    exact (hparts 1).2.1
  · rw [hend]
    exact (hparts 1).2.2
  · rw [htext]
    intro hm
    rcases mem_joinWith '\n' _ '\r' (mem_jsTrim _ _ hm) with h | ⟨l, hl, hcl⟩
    · exact absurd h (by decide)
    · exact (hmem l (List.drop_subset _ _ hl)).2.2 hcl
  · rw [htext]
    exact jsTrim_idem _
  · rw [htext]
    refine hasNN_jsTrim _ ?_
    exact (hasNN_joinNL (lines.drop (k + 1)) (fun l hl =>
      ⟨(hmem l (List.drop_subset _ _ hl)).1,
       (hmem l (List.drop_subset _ _ hl)).2.1⟩)).1

theorem cuesOf_map_cueKey : ∀ (cues : List Cue) (i : Nat),
    (cuesOf i cues).map cueKey = cues.map cueKey := by
  intro cues
  induction cues with
  | nil => intro i; rfl
  | cons b rest ih =>
    intro i
    show cueKey (cueOf b i) :: (cuesOf (i + 1) rest).map cueKey =
      cueKey b :: rest.map cueKey
    rw [ih (i + 1)]
    rfl

/-- C3 counterexample: on the input whose cue text keeps a carriage return
(the block ab CR CR LF cd), the reparse of the serialization changes the cue
text (the kept CR LF collapses to LF), so the round trip is not stable for
every input string as claimed. -/
theorem c3_counterexample :
    (parseSRT (buildSRT (parseSRT c3src))).map cueKey ≠
      (parseSRT c3src).map cueKey := by
  decide

/-- C3 (amended): for every carriage-return-free input string x, the reparse
of the serialization of parseSRT x preserves the cue count, the order, the
start and end timestamp strings and the cue text of parseSRT x (only the
ordinal identifiers may be renumbered). -/
theorem c3_roundtrip_preserves_cues_noCR (x : Str) (hcr : '\r' ∉ x) :
    (parseSRT (buildSRT (parseSRT x))).map cueKey = (parseSRT x).map cueKey := by
  have hinv := parseSRT_inv x hcr
  show ((splitDouble (buildSRTAux 0 (parseSRT x))).filterMap parseBlock).map
    cueKey = _
  rw [parseSRT_buildSRTAux (parseSRT x) hinv 0]
  exact cuesOf_map_cueKey (parseSRT x) 0

/-- Witness for C3: the carriage-return-free sample subtitle satisfies the
hypothesis and the round-trip conclusion. -/
theorem c3_witness :
    '\r' ∉ sampleSrt ∧
    (parseSRT (buildSRT (parseSRT sampleSrt))).map cueKey =
      (parseSRT sampleSrt).map cueKey :=
  ⟨by decide, c3_roundtrip_preserves_cues_noCR sampleSrt (by decide)⟩

end SubAddon
